import Mathlib

/-!
Verification of the merge-planning and merge-execution engine of
`folder_suffix.py` (classes `OperationStats`, `MergeConfig`, `OperationContext`,
`MergePlanner`, `MergeExecutor`, `BackupManager`).

The filesystem is modelled as a finite tree of named nodes; paths are lists of
path components.  Python strings are modelled by Lean `String`, but every
string operation used by the program (`endswith`, slicing, `lower`,
`os.path.splitext`) is defined here directly over the underlying character
list, matching Python's character-sequence semantics (Python's `lower` is
modelled on the ASCII range, which is all the engine relies on).

Stateful code is embedded by explicit state passing: a `MergeState` carries the
filesystem, the `OperationStats` counters, and the observable event streams
(log lines, clamped progress values as rationals, status texts) produced
through the context's callbacks.  The recursion of `_merge_trees` and of the
unique-name search loop is made total with an explicit fuel parameter; fuel
exhaustion returns the state unchanged and all theorems either hold for every
fuel or are instantiated with sufficient fuel.
-/

namespace FolderSuffix

/-! ### Character-level string operations (Python `str` semantics) -/

/-- Number of characters of a string (Python `len`). -/
def strLen (s : String) : Nat := s.data.length

/-- Python `str.endswith`. -/
def strEndsWith (s suf : String) : Bool := suf.data.isSuffixOf s.data

/-- Python slicing `s[:n]` for `0 ≤ n`. -/
def strTake (s : String) (n : Nat) : String := ⟨s.data.take n⟩

/-- ASCII lower-casing of one character (what Python `str.lower` does on the
ASCII range). -/
def lowerChar (c : Char) : Char :=
  if 'A' ≤ c ∧ c ≤ 'Z' then Char.ofNat (c.toNat + 32) else c

/-- Python `str.lower`, modelled on the ASCII range. -/
def strLower (s : String) : String := ⟨s.data.map lowerChar⟩

/-- `os.path.splitext` on a bare file name: split at the last dot, unless every
character before that dot is itself a dot (leading-dot names have no
extension).  Mirrors CPython `genericpath._splitext` for a name without
separators. -/
def splitext (s : String) : String × String :=
  match s.data.reverse.findIdx? (fun c => c == '.') with
  | none => (s, ⟨[]⟩)
  | some revIdx =>
      let i := s.data.length - 1 - revIdx
      if (s.data.take i).any (fun c => c != '.') then
        (⟨s.data.take i⟩, ⟨s.data.drop i⟩)
      else (s, ⟨[]⟩)

/-! ### Filesystem model -/

/-- A path is the list of its components (`os.path.join` is list append). -/
abbrev Path := List String

mutual
/-- A filesystem node: a file with byte content, or a directory. -/
inductive FSTree where
  | file (content : List Nat) : FSTree
  | dir (entries : FSEntries) : FSTree

/-- The ordered, (in a well-formed tree) uniquely named entries of a
directory; the order models the `os.listdir` / `os.scandir` order. -/
inductive FSEntries where
  | nil : FSEntries
  | cons (name : String) (tree : FSTree) (rest : FSEntries) : FSEntries
end

/-- Directory entries as an ordinary list. -/
def FSEntries.toList : FSEntries → List (String × FSTree)
  | .nil => []
  | .cons n t rest => (n, t) :: rest.toList

/-- Rebuild entries from a list. -/
def FSEntries.ofList : List (String × FSTree) → FSEntries
  | [] => .nil
  | (n, t) :: rest => .cons n t (FSEntries.ofList rest)

def FSTree.isDir : FSTree → Bool
  | .dir _ => true
  | .file _ => false

/-- The names of a directory's entries, in listing order. -/
def namesOf (es : FSEntries) : List String := es.toList.map (fun e => e.1)

/-- The names of the sub-directories among a directory's entries. -/
def dirNamesOf (es : FSEntries) : List String :=
  (es.toList.filter (fun e => e.2.isDir)).map (fun e => e.1)

/-- Resolve a path to the node it denotes, if any. -/
def lookup : FSTree → Path → Option FSTree
  | t, [] => some t
  | .file _, _ :: _ => none
  | .dir es, n :: rest =>
      match es.toList.find? (fun e => e.1 == n) with
      | some e => lookup e.2 rest
      | none => none

/-- `os.path.exists`. -/
def pathExistsB (t : FSTree) (p : Path) : Bool := (lookup t p).isSome

/-- `os.path.isdir`. -/
def isDirAtB (t : FSTree) (p : Path) : Bool :=
  match lookup t p with
  | some (.dir _) => true
  | _ => false

/-- `os.listdir` (`none` when the path is missing or a file, where Python
raises `OSError`). -/
def listdirAt (t : FSTree) (p : Path) : Option (List String) :=
  match lookup t p with
  | some (.dir es) => some (namesOf es)
  | _ => none

/-- Replace the entry named `n` by the node `nt`. -/
def replaceBy (l : List (String × FSTree)) (n : String) (nt : FSTree) :
    List (String × FSTree) :=
  l.map (fun e => if e.1 == n then (e.1, nt) else e)

/-- Write `node` at path `p`, creating missing intermediate directories and
appending new entries at the end of the listing; descending into a file leaves
the tree unchanged (the corresponding OS call would fail). -/
def setNode : FSTree → Path → FSTree → FSTree
  | _, [], node => node
  | .file c, _ :: _, _ => .file c
  | .dir es, n :: rest, node =>
      match es.toList.find? (fun e => e.1 == n) with
      | some e => .dir (.ofList (replaceBy es.toList n (setNode e.2 rest node)))
      | none => .dir (.ofList (es.toList ++ [(n, setNode (.dir .nil) rest node)]))

/-- Delete the node at path `p` (no-op when the path does not resolve). -/
def removeNode : FSTree → Path → FSTree
  | t, [] => t
  | .file c, _ :: _ => .file c
  | .dir es, [n] => .dir (.ofList (es.toList.filter (fun e => e.1 != n)))
  | .dir es, n :: m :: rest =>
      match es.toList.find? (fun e => e.1 == n) with
      | some e => .dir (.ofList (replaceBy es.toList n (removeNode e.2 (m :: rest))))
      | none => .dir es

/-- `os.makedirs(path, exist_ok=True)`: create the directory chain; a file in
the way leaves the tree unchanged (the OS call would raise). -/
def makedirsFS : FSTree → Path → FSTree
  | t, [] => t
  | .file c, _ :: _ => .file c
  | .dir es, n :: rest =>
      match es.toList.find? (fun e => e.1 == n) with
      | some e => .dir (.ofList (replaceBy es.toList n (makedirsFS e.2 rest)))
      | none => .dir (.ofList (es.toList ++ [(n, makedirsFS (.dir .nil) rest)]))

/-- `shutil.move` / `os.rename` for the engine's call sites (the destination
path never denotes an existing directory to descend into): detach the source
node and write it at the destination. -/
def moveNode (t : FSTree) (src dst : Path) : FSTree :=
  match lookup t src with
  | none => t
  | some node => setNode (removeNode t src) dst node

/-- `os.remove`: deletes a file; any error (missing path, directory) leaves
the tree unchanged, matching the `except OSError: pass` at the call site. -/
def removeFileAt (t : FSTree) (p : Path) : FSTree :=
  match lookup t p with
  | some (.file _) => removeNode t p
  | _ => t

/-- A Boolean no-duplicates check on names. -/
def nodupB : List String → Bool
  | [] => true
  | n :: rest => (!rest.contains n) && nodupB rest

mutual
/-- Well-formedness of a tree: every directory's entry names are distinct,
as on a real filesystem. -/
def wfT : FSTree → Bool
  | .file _ => true
  | .dir es => nodupB (namesOf es) && wfEs es

def wfEs : FSEntries → Bool
  | .nil => true
  | .cons _ t rest => wfT t && wfEs rest
end

/-- `os.path.basename` of a component path. -/
def basename (p : Path) : String := p.getLast?.getD (⟨[]⟩)

/-- `os.path.dirname` of a component path. -/
def dirname (p : Path) : Path := p.dropLast

/-! ### Data model (`ConflictMode`, `MergeConfig`, `OperationStats`) -/

/-- File conflict resolution modes. -/
inductive ConflictMode where
  | rename
  | overwrite
  | skip
deriving DecidableEq

/-- Configuration for merge operations.  (`__post_init__` additionally rejects
an empty `root_path`/`suffix`; validation happens before any of the operations
modelled here runs.) -/
structure MergeConfig where
  root_path : Path
  suffix : String
  ignore_case : Bool := false
  dry_run : Bool := true
  create_backup : Bool := false
  conflict_mode : ConflictMode := .rename

/-- Statistics of one merge run. -/
structure OperationStats where
  folders_planned : Nat := 0
  folders_merged : Nat := 0
  folders_renamed : Nat := 0
  files_moved : Nat := 0
  items_skipped : Nat := 0
  name_conflicts : Nat := 0
  dirs_deleted : Nat := 0
  backups_created : Nat := 0
deriving DecidableEq

/-- The state threaded through a run: the filesystem plus everything the
`OperationContext` owns or emits.  `progressEvents` records the values passed
to the progress callback (already clamped to `[0, 1]`, as `.progress` does);
`log`/`statusEvents` record the lines passed to the log and status sinks. -/
structure MergeState where
  fs : FSTree
  stats : OperationStats := {}
  log : List String := []
  progressEvents : List ℚ := []
  statusEvents : List String := []

/-! ### `OperationContext` primitives -/

/-- `OperationContext.log`. -/
def ctxLog (s : MergeState) (m : String) : MergeState :=
  { s with log := s.log ++ [m] }

/-- `OperationContext.progress`: clamps to `[0, 1]` and reports. -/
def ctxProgress (s : MergeState) (v : ℚ) : MergeState :=
  { s with progressEvents := s.progressEvents ++ [max 0 (min 1 v)] }

/-- `OperationContext.status`. -/
def ctxStatus (s : MergeState) (m : String) : MergeState :=
  { s with statusEvents := s.statusEvents ++ [m] }

/-- The candidate file name `f"{base} ({counter}){ext}"` tried by
`generate_unique_path`. -/
def numberedName (base ext : String) (counter : Nat) : String :=
  base ++ (" (") ++ (Nat.repr counter) ++ (")") ++ ext

/-- The `while os.path.exists(candidate)` loop of `generate_unique_path`,
made total by fuel (the Python loop always terminates because candidates are
pairwise distinct and the directory is finite; `genFuel` below is proved
sufficient). -/
def genLoop (fs : FSTree) (directory : Path) (base ext : String) :
    Nat → String → Nat → Path
  | 0, cand, _ => directory ++ [cand]
  | fuel + 1, cand, counter =>
      if pathExistsB fs (directory ++ [cand]) then
        genLoop fs directory base ext fuel (numberedName base ext counter)
          (counter + 1)
      else directory ++ [cand]

/-- Fuel sufficient for `genLoop` to find a free candidate: two more than the
number of entries of the target directory. -/
def genFuel (fs : FSTree) (directory : Path) : Nat :=
  ((listdirAt fs directory).getD []).length + 2

/-- `OperationContext.generate_unique_path`. -/
def generate_unique_path (fs : FSTree) (directory : Path) (name : String) :
    Path :=
  let be := splitext name
  genLoop fs directory be.1 be.2 (genFuel fs directory) name 1

/-- Log text of the skip branch of `resolve_conflict`. -/
def skipExistsMsg (b : String) : String := ("  ⊘ Skip (exists): ") ++ b

/-- Log text of the overwrite branch of `resolve_conflict`. -/
def overwriteMsg (b : String) : String := ("  ⟳ Overwrite: ") ++ b

/-- Log text of the rename branch of `resolve_conflict` and of
`_handle_type_conflict`. -/
def renameMsg (b nb : String) : String := ("  ⟳ Rename: ") ++ b ++ (" → ") ++ nb

/-- `OperationContext.resolve_conflict`: returns the resolved destination
path, or `none` for "skip this file". -/
def resolve_conflict (cfg : MergeConfig) (s : MergeState)
    (dst_dir dst_path : Path) : MergeState × Option Path :=
  if ¬ pathExistsB s.fs dst_path then (s, some dst_path)
  else
    let base_name := basename dst_path
    match cfg.conflict_mode with
    | .skip =>
        let s := ctxLog s (skipExistsMsg base_name)
        let s := { s with stats := { s.stats with
          items_skipped := s.stats.items_skipped + 1,
          name_conflicts := s.stats.name_conflicts + 1 } }
        (s, none)
    | .overwrite =>
        let s := ctxLog s (overwriteMsg base_name)
        let s := { s with stats := { s.stats with
          name_conflicts := s.stats.name_conflicts + 1 } }
        let s := if cfg.dry_run then s
                 else { s with fs := removeFileAt s.fs dst_path }
        (s, some dst_path)
    | .rename =>
        let new_path := generate_unique_path s.fs dst_dir base_name
        let s := ctxLog s (renameMsg base_name (basename new_path))
        let s := { s with stats := { s.stats with
          name_conflicts := s.stats.name_conflicts + 1 } }
        (s, some new_path)

/-- Render a path for a log line. -/
def joinPath (p : Path) : String := String.intercalate ("/") p

/-- `OperationContext.makedirs`. -/
def makedirs (cfg : MergeConfig) (s : MergeState) (path : Path) : MergeState :=
  if pathExistsB s.fs path then s
  else if cfg.dry_run then ctxLog s (("  [DRY] mkdir: ") ++ joinPath path)
  else { s with fs := makedirsFS s.fs path }

/-- The live filesystem effect of `OperationContext.move`: create the
destination's parent chain if missing, then `shutil.move`. -/
def moveFS (fs : FSTree) (src dst : Path) : FSTree :=
  let fs1 :=
    if (dirname dst).isEmpty then fs
    else if pathExistsB fs (dirname dst) then fs
    else makedirsFS fs (dirname dst)
  moveNode fs1 src dst

/-- `OperationContext.move`. -/
def move (cfg : MergeConfig) (s : MergeState) (src dst : Path)
    (is_dir : Bool) : MergeState :=
  let label : String := if is_dir then ("folder") else ("file")
  let s :=
    if cfg.dry_run then
      ctxLog s (("  [DRY] move ") ++ label ++ (": ") ++ basename src)
    else { s with fs := moveFS s.fs src dst }
  if is_dir then s
  else { s with stats := { s.stats with files_moved := s.stats.files_moved + 1 } }

/-- `OperationContext.rename_dir`. -/
def rename_dir (cfg : MergeConfig) (s : MergeState) (src dst : Path) :
    MergeState :=
  let s :=
    if cfg.dry_run then
      ctxLog s (("  [DRY] rename: ") ++ basename src ++ (" → ") ++ basename dst)
    else { s with fs := moveFS s.fs src dst }
  { s with stats := { s.stats with
      folders_renamed := s.stats.folders_renamed + 1 } }

/-- `OperationContext.rmdir`: removes an empty directory; any `OSError`
(missing path, file, non-empty directory) yields `false` without counting. -/
def rmdir (cfg : MergeConfig) (s : MergeState) (path : Path) :
    MergeState × Bool :=
  if cfg.dry_run then
    let s := ctxLog s (("  [DRY] rmdir: ") ++ basename path)
    ({ s with stats := { s.stats with
        dirs_deleted := s.stats.dirs_deleted + 1 } }, true)
  else
    match lookup s.fs path with
    | some (.dir .nil) =>
        let s1 := { s with fs := removeNode s.fs path }
        ({ s1 with stats := { s1.stats with
             dirs_deleted := s1.stats.dirs_deleted + 1 } }, true)
    | _ => (s, false)

/-! ### `MergePlanner` -/

mutual
/-- `os.walk(root, topdown=False)` restricted to the `(dirpath, dirnames)`
components: each directory's sub-walks, in listing order, followed by the
directory's own pair. -/
def walkT (p : Path) : FSTree → List (Path × List String)
  | .file _ => []
  | .dir es => walkEs p es ++ [(p, dirNamesOf es)]

def walkEs (p : Path) : FSEntries → List (Path × List String)
  | .nil => []
  | .cons n t rest => walkT (p ++ [n]) t ++ walkEs p rest
end

/-- `os.walk` from a root path (a missing root, or a root that is a file,
yields nothing). -/
def walkFS (fs : FSTree) (root : Path) : List (Path × List String) :=
  match lookup fs root with
  | some t => walkT root t
  | none => []

/-- `MergePlanner.build_plan`. -/
def build_plan (fs : FSTree) (root : Path) (suffix : String)
    (ignore_case : Bool := false) : List (Path × Path) :=
  if suffix = (⟨[]⟩ : String) then []
  else
    let suffix_len := strLen suffix
    let match_suffix := if ignore_case then strLower suffix else suffix
    (walkFS fs root).flatMap (fun tr =>
      tr.2.filterMap (fun name =>
        let check_name := if ignore_case then strLower name else name
        if strEndsWith check_name match_suffix then
          let base := strTake name (strLen name - suffix_len)
          if base ≠ (⟨[]⟩ : String) then
            some (tr.1 ++ [name], tr.1 ++ [base])
          else none
        else none))

/-! ### `MergeExecutor` -/

/-- `_handle_type_conflict` (the destination item's path is not used by the
body; the dispatch happened in the caller). -/
def handle_type_conflict (cfg : MergeConfig) (s : MergeState)
    (src_item _dst_item : Path) (name : String) (dst_parent : Path)
    (is_dir : Bool) : MergeState :=
  let src_type : String := if is_dir then ("folder") else ("file")
  let dst_type : String := if is_dir then ("file") else ("folder")
  if cfg.conflict_mode = .skip then
    let s := ctxLog s (("  ⊘ Skip (") ++ src_type ++ (" vs ") ++ dst_type
      ++ ("): ") ++ name)
    { s with stats := { s.stats with
        items_skipped := s.stats.items_skipped + 1,
        name_conflicts := s.stats.name_conflicts + 1 } }
  else
    let new_path := generate_unique_path s.fs dst_parent name
    let s := ctxLog s (("  ⟳ Rename (") ++ src_type ++ (" vs ") ++ dst_type
      ++ ("): ") ++ name ++ (" → ") ++ basename new_path)
    let s := { s with stats := { s.stats with
        name_conflicts := s.stats.name_conflicts + 1 } }
    move cfg s src_item new_path is_dir

/-- `_merge_file`. -/
def merge_file (cfg : MergeConfig) (s : MergeState)
    (src_item dst_item : Path) (name : String) (dst_parent : Path) :
    MergeState :=
  if isDirAtB s.fs dst_item then
    handle_type_conflict cfg s src_item dst_item name dst_parent false
  else if pathExistsB s.fs dst_item then
    match resolve_conflict cfg s dst_parent dst_item with
    | (s1, some resolved) => move cfg s1 src_item resolved false
    | (s1, none) => s1
  else move cfg s src_item dst_item false

/-- `_merge_directory`; `rec` is the recursive `_merge_trees` call (supplied
with one unit of fuel less by `merge_trees` below). -/
def merge_directory (cfg : MergeConfig)
    (rec : Path → Path → MergeState → MergeState) (s : MergeState)
    (src_item dst_item : Path) (name : String) (dst_parent : Path) :
    MergeState :=
  if isDirAtB s.fs dst_item then
    rec src_item dst_item
      { s with stats := { s.stats with
          folders_merged := s.stats.folders_merged + 1 } }
  else if pathExistsB s.fs dst_item then
    handle_type_conflict cfg s src_item dst_item name dst_parent true
  else
    move cfg
      { s with stats := { s.stats with
          folders_merged := s.stats.folders_merged + 1 } }
      src_item dst_item true

/-- One iteration of the `for name in os.listdir(src)` loop of
`_merge_trees`. -/
def mergeItem (cfg : MergeConfig)
    (rec : Path → Path → MergeState → MergeState) (src dst : Path)
    (s : MergeState) (name : String) : MergeState :=
  let src_item := src ++ [name]
  let dst_item := dst ++ [name]
  if isDirAtB s.fs src_item then
    merge_directory cfg rec s src_item dst_item name dst
  else
    merge_file cfg s src_item dst_item name dst

/-- `_merge_trees`, with fuel bounding the recursion depth (the source code
recurses on strictly deeper directories, so any fuel larger than the tree
depth is sufficient; fuel `0` returns the state unchanged). -/
def merge_trees (cfg : MergeConfig) : Nat → Path → Path → MergeState →
    MergeState
  | 0, _, _, s => s
  | fuel + 1, src, dst, s =>
      let s := if ¬ pathExistsB s.fs dst then makedirs cfg s dst else s
      let names := (listdirAt s.fs src).getD []
      let s := names.foldl (mergeItem cfg (merge_trees cfg fuel) src dst) s
      match listdirAt s.fs src with
      | some [] => (rmdir cfg s src).1
      | _ => s

/-- Per-entry body of `MergeExecutor.execute`'s loop. -/
def executeEntry (cfg : MergeConfig) (fuel : Nat) (total planLen : Nat)
    (index : Nat) (src dst : Path) (s : MergeState) : MergeState :=
  if ¬ pathExistsB s.fs src then
    ctxProgress (ctxLog s (("⊘ Skipped (not found): ") ++ basename src))
      ((index : ℚ) / (total : ℚ))
  else
    let s := ctxStatus s (("Processing ") ++ Nat.repr index ++ ("/")
      ++ Nat.repr planLen)
    let s :=
      if pathExistsB s.fs dst then
        merge_trees cfg fuel src dst
          { (ctxLog s (("◈ Merging: ") ++ basename src ++ (" → ")
              ++ basename dst)) with
            stats := { s.stats with
              folders_merged := s.stats.folders_merged + 1 } }
      else
        rename_dir cfg
          (ctxLog s (("◇ Renaming: ") ++ basename src ++ (" → ")
            ++ basename dst)) src dst
    ctxProgress s ((index : ℚ) / (total : ℚ))

/-- The `for index, (src, dst) in enumerate(plan, start=1)` loop. -/
def executeLoop (cfg : MergeConfig) (fuel : Nat) (total planLen : Nat) :
    Nat → List (Path × Path) → MergeState → MergeState
  | _, [], s => s
  | index, (src, dst) :: rest, s =>
      executeLoop cfg fuel total planLen (index + 1) rest
        (executeEntry cfg fuel total planLen index src dst s)

/-- `MergeExecutor.execute` (`total = len(plan) or 1`). -/
def execute (cfg : MergeConfig) (fuel : Nat) (plan : List (Path × Path))
    (s : MergeState) : MergeState :=
  let total := if plan.length = 0 then 1 else plan.length
  executeLoop cfg fuel total plan.length 1 plan s

/-! ### `BackupManager` -/

/-- `BackupManager.create_archive`.  The wall-clock timestamp is a parameter;
the archive's byte content is abstracted (no claim depends on it) and the
`shutil.make_archive` failure branch, which only logs and returns `None`, is
not modelled. -/
def create_archive (cfg : MergeConfig) (root : Path) (timestamp : String)
    (s : MergeState) : MergeState × Option Path :=
  if ¬ isDirAtB s.fs root then (s, none)
  else
    let name := if basename root = (⟨[]⟩ : String) then ("backup" : String)
                else basename root
    let archive_name := name ++ ("_backup_") ++ timestamp
    let archive_path := dirname root ++ [archive_name ++ (".zip")]
    let s := ctxLog s (("◎ Creating backup: ") ++ archive_name ++ (".zip"))
    let s := ctxStatus s ("Creating backup archive...")
    if cfg.dry_run then
      (ctxLog s ("  [DRY] Backup not created (simulation mode)"), some archive_path)
    else
      let s := { s with fs := setNode s.fs archive_path (.file []) }
      let s := ctxLog s (("  ✓ Backup created: ") ++ archive_name ++ (".zip"))
      let s := { s with stats := { s.stats with
          backups_created := s.stats.backups_created + 1 } }
      (s, some archive_path)

/-! ### The run driver (`_run_merge`, engine part) -/

/-- The engine part of `FolderMergerApp._run_merge`: plan, record
`folders_planned`, optionally back up, execute, and report completion.  The
purely decorative configuration-echo and summary log lines and the
UI-thread calls are not modelled. -/
def runMerge (cfg : MergeConfig) (fuel : Nat) (timestamp : String)
    (s : MergeState) : MergeState :=
  let plan := build_plan s.fs cfg.root_path cfg.suffix cfg.ignore_case
  let s := { s with stats := { s.stats with folders_planned := plan.length } }
  if plan.isEmpty then
    ctxProgress
      (ctxStatus (ctxLog s ("No folders found with the specified suffix."))
        ("Complete: nothing to merge."))
      1
  else
    let s := ctxLog s (("Found ") ++ Nat.repr plan.length
      ++ (" folder(s) to process."))
    let s := if cfg.create_backup then
        (create_archive cfg cfg.root_path timestamp s).1
      else s
    let s := ctxStatus s ("Merging folders...")
    let s := execute cfg fuel plan s
    ctxProgress (ctxStatus s ("Complete.")) 1

/-! ### Pointwise order on statistics -/

/-- `a` is pointwise below `b` on every counter. -/
def statsLE (a b : OperationStats) : Prop :=
  a.folders_planned ≤ b.folders_planned ∧
  a.folders_merged ≤ b.folders_merged ∧
  a.folders_renamed ≤ b.folders_renamed ∧
  a.files_moved ≤ b.files_moved ∧
  a.items_skipped ≤ b.items_skipped ∧
  a.name_conflicts ≤ b.name_conflicts ∧
  a.dirs_deleted ≤ b.dirs_deleted ∧
  a.backups_created ≤ b.backups_created

instance : DecidablePred fun p : OperationStats × OperationStats =>
    statsLE p.1 p.2 := fun _ => by unfold statsLE; infer_instance

/-! ### Concrete scenarios used as test inputs -/

/-- The spec's dry-run/live-run scenario tree: `{A_old/{x.txt}, A/{}}`. -/
def exFS : FSTree :=
  .dir (.cons ("A_old") (.dir (.cons ("x.txt") (.file [7]) .nil))
    (.cons ("A") (.dir .nil) .nil))

/-- A nested scenario: `{A_old/{B_old/{}}}` (a suffixed folder inside a
suffixed folder). -/
def fsNested : FSTree :=
  .dir (.cons ("A_old") (.dir (.cons ("B_old") (.dir .nil) .nil)) .nil)

/-- A directory `d` already containing `data`, `data (1)` and `data (2)`. -/
def fsUnique : FSTree :=
  .dir (.cons ("d")
    (.dir (.cons ("data") (.file []) (.cons ("data (1)") (.file [])
      (.cons ("data (2)") (.file []) .nil)))) .nil)

/-- A type-conflict scenario: `B_old/{item}` is a file, `B/{item}` is a
directory. -/
def fsType : FSTree :=
  .dir (.cons ("B_old") (.dir (.cons ("item") (.file [1]) .nil))
    (.cons ("B") (.dir (.cons ("item") (.dir .nil) .nil)) .nil))

/-- One empty directory and one non-empty directory, for `rmdir`. -/
def fsRm : FSTree :=
  .dir (.cons ("empty") (.dir .nil)
    (.cons ("full") (.dir (.cons ("f") (.file []) .nil)) .nil))

/-- Default dry-run configuration with suffix `_old`. -/
def cfgDry : MergeConfig := { root_path := [], suffix := ("_old") }

/-- The live (non-simulated) variant of `cfgDry`. -/
def cfgLive : MergeConfig := { cfgDry with dry_run := false }

/-- Live configuration with `Skip` conflict mode. -/
def cfgSkipLive : MergeConfig := { cfgLive with conflict_mode := .skip }

/-- Live configuration with `Overwrite` conflict mode. -/
def cfgOvwLive : MergeConfig := { cfgLive with conflict_mode := .overwrite }

/-- Fresh state over the spec's scenario tree. -/
def exState : MergeState := { fs := exFS }

/-- Fresh state over the nested scenario. -/
def stNested : MergeState := { fs := fsNested }

/-- Fresh state over the type-conflict scenario. -/
def stType : MergeState := { fs := fsType }

/-- Fresh state over the `rmdir` scenario. -/
def stRm : MergeState := { fs := fsRm }

/-! ## Theorems

### Dry-run leaves the filesystem untouched (towards C1) -/

theorem ctxLog_fs (s : MergeState) (m : String) : (ctxLog s m).fs = s.fs := rfl

theorem ctxProgress_fs (s : MergeState) (v : ℚ) :
    (ctxProgress s v).fs = s.fs := rfl

theorem ctxStatus_fs (s : MergeState) (m : String) :
    (ctxStatus s m).fs = s.fs := rfl

theorem makedirs_fs_dry (cfg : MergeConfig) (h : cfg.dry_run = true)
    (s : MergeState) (p : Path) : (makedirs cfg s p).fs = s.fs := by
  unfold makedirs
  split
  · rfl
  · simp [h, ctxLog_fs]

theorem move_fs_dry (cfg : MergeConfig) (h : cfg.dry_run = true)
    (s : MergeState) (a b : Path) (d : Bool) : (move cfg s a b d).fs = s.fs := by
  cases d <;> simp [move, h, ctxLog_fs]

theorem rename_dir_fs_dry (cfg : MergeConfig) (h : cfg.dry_run = true)
    (s : MergeState) (a b : Path) : (rename_dir cfg s a b).fs = s.fs := by
  simp [rename_dir, h, ctxLog_fs]

theorem rmdir_fs_dry (cfg : MergeConfig) (h : cfg.dry_run = true)
    (s : MergeState) (p : Path) : ((rmdir cfg s p).1).fs = s.fs := by
  simp [rmdir, h, ctxLog_fs]

theorem resolve_conflict_fs_dry (cfg : MergeConfig) (h : cfg.dry_run = true)
    (s : MergeState) (a b : Path) :
    ((resolve_conflict cfg s a b).1).fs = s.fs := by
  unfold resolve_conflict
  split
  · rfl
  · split <;> simp [h, ctxLog_fs]

theorem handle_type_conflict_fs_dry (cfg : MergeConfig)
    (h : cfg.dry_run = true) (s : MergeState) (si di : Path) (n : String)
    (dp : Path) (d : Bool) :
    (handle_type_conflict cfg s si di n dp d).fs = s.fs := by
  by_cases hm : cfg.conflict_mode = .skip
  · simp [handle_type_conflict, hm, ctxLog_fs]
  · simp [handle_type_conflict, hm, move_fs_dry cfg h, ctxLog_fs]

theorem merge_file_fs_dry (cfg : MergeConfig) (h : cfg.dry_run = true)
    (s : MergeState) (si di : Path) (n : String) (dp : Path) :
    (merge_file cfg s si di n dp).fs = s.fs := by
  unfold merge_file
  split
  · exact handle_type_conflict_fs_dry cfg h _ _ _ _ _ _
  split
  · split
    next s1 r heq =>
      rw [move_fs_dry cfg h]
      have := resolve_conflict_fs_dry cfg h s dp di
      rw [heq] at this
      exact this
    next s1 heq =>
      have := resolve_conflict_fs_dry cfg h s dp di
      rw [heq] at this
      exact this
  · exact move_fs_dry cfg h _ _ _ _

theorem merge_directory_fs_dry (cfg : MergeConfig) (h : cfg.dry_run = true)
    (rec : Path → Path → MergeState → MergeState)
    (hrec : ∀ a b s, (rec a b s).fs = s.fs) (s : MergeState)
    (si di : Path) (n : String) (dp : Path) :
    (merge_directory cfg rec s si di n dp).fs = s.fs := by
  unfold merge_directory
  split
  · rw [hrec]
  split
  · exact handle_type_conflict_fs_dry cfg h _ _ _ _ _ _
  · rw [move_fs_dry cfg h]

theorem mergeItem_fs_dry (cfg : MergeConfig) (h : cfg.dry_run = true)
    (rec : Path → Path → MergeState → MergeState)
    (hrec : ∀ a b s, (rec a b s).fs = s.fs) (src dst : Path)
    (s : MergeState) (n : String) :
    (mergeItem cfg rec src dst s n).fs = s.fs := by
  simp only [mergeItem]
  split
  · exact merge_directory_fs_dry cfg h _ hrec _ _ _ _ _
  · exact merge_file_fs_dry cfg h _ _ _ _ _

theorem foldl_fs_eq {α : Type} (f : MergeState → α → MergeState)
    (hf : ∀ s a, (f s a).fs = s.fs) :
    ∀ (l : List α) (s : MergeState), (l.foldl f s).fs = s.fs := by
  intro l
  induction l with
  | nil => intro s; rfl
  | cons a t ih => intro s; rw [List.foldl_cons, ih, hf]

theorem merge_trees_fs_dry (cfg : MergeConfig) (h : cfg.dry_run = true) :
    ∀ (fuel : Nat) (src dst : Path) (s : MergeState),
      (merge_trees cfg fuel src dst s).fs = s.fs := by
  intro fuel
  induction fuel with
  | zero => intro src dst s; rfl
  | succ n ih =>
      intro src dst s
      simp only [merge_trees]
      have hfold := foldl_fs_eq
        (mergeItem cfg (merge_trees cfg n) src dst)
        (fun s' a => mergeItem_fs_dry cfg h _ (fun a b s'' => ih a b s'') src dst s' a)
      split
      · rw [rmdir_fs_dry cfg h, hfold]
        split
        · rw [makedirs_fs_dry cfg h]
        · rfl
      · rw [hfold]
        split
        · rw [makedirs_fs_dry cfg h]
        · rfl

theorem executeEntry_fs_dry (cfg : MergeConfig) (h : cfg.dry_run = true)
    (fuel total planLen index : Nat) (src dst : Path) (s : MergeState) :
    (executeEntry cfg fuel total planLen index src dst s).fs = s.fs := by
  simp only [executeEntry]
  split
  · rfl
  · rw [ctxProgress_fs]
    split
    · rw [merge_trees_fs_dry cfg h]; rfl
    · rw [rename_dir_fs_dry cfg h]; rfl

theorem executeLoop_fs_dry (cfg : MergeConfig) (h : cfg.dry_run = true)
    (fuel total planLen : Nat) :
    ∀ (index : Nat) (plan : List (Path × Path)) (s : MergeState),
      (executeLoop cfg fuel total planLen index plan s).fs = s.fs := by
  intro index plan
  induction plan generalizing index with
  | nil => intro s; rfl
  | cons e t ih =>
      intro s
      obtain ⟨a, b⟩ := e
      unfold executeLoop
      rw [ih, executeEntry_fs_dry cfg h]

theorem execute_fs_dry (cfg : MergeConfig) (h : cfg.dry_run = true)
    (fuel : Nat) (plan : List (Path × Path)) (s : MergeState) :
    (execute cfg fuel plan s).fs = s.fs :=
  executeLoop_fs_dry cfg h fuel _ _ 1 plan s

theorem create_archive_fs_dry (cfg : MergeConfig) (h : cfg.dry_run = true)
    (root : Path) (ts : String) (s : MergeState) :
    ((create_archive cfg root ts s).1).fs = s.fs := by
  unfold create_archive
  split
  · rfl
  · simp [h, ctxLog_fs, ctxStatus_fs]

/-- C1.  When the configuration has `dry_run = true`, an entire run
(planning, optional backup, and executing every plan entry, including
recursive tree merges and conflict resolution) performs no filesystem
mutation: the final filesystem equals the initial one node for node, so every
file and directory under `root_path` keeps its existence, location and byte
content. -/
theorem dry_run_run_no_mutation (cfg : MergeConfig) (fuel : Nat)
    (ts : String) (s : MergeState) (h : cfg.dry_run = true) :
    (runMerge cfg fuel ts s).fs = s.fs := by
  simp only [runMerge]
  split
  · rfl
  · rw [ctxProgress_fs, ctxStatus_fs, execute_fs_dry cfg h, ctxStatus_fs]
    split
    · rw [create_archive_fs_dry cfg h]; rfl
    · rfl

/-- Witness for C1: a dry run over the spec's scenario tree
`{A_old/{x.txt}, A/{}}` leaves the filesystem identical. -/
theorem dry_run_run_no_mutation_witness :
    cfgDry.dry_run = true ∧
      (runMerge cfgDry 4 ("ts") { fs := exFS }).fs = exFS :=
  ⟨rfl, dry_run_run_no_mutation cfgDry 4 ("ts") { fs := exFS } rfl⟩

/-! ### Monotonicity of the statistics counters (towards C10) -/

theorem statsLE_refl (a : OperationStats) : statsLE a a := by
  unfold statsLE; omega

theorem statsLE_trans {a b c : OperationStats} (h1 : statsLE a b)
    (h2 : statsLE b c) : statsLE a c := by
  unfold statsLE at *; omega

theorem ctxLog_stats (s : MergeState) (m : String) :
    (ctxLog s m).stats = s.stats := rfl

theorem ctxProgress_stats (s : MergeState) (v : ℚ) :
    (ctxProgress s v).stats = s.stats := rfl

theorem ctxStatus_stats (s : MergeState) (m : String) :
    (ctxStatus s m).stats = s.stats := rfl

theorem makedirs_statsLE (cfg : MergeConfig) (s : MergeState) (p : Path) :
    statsLE s.stats (makedirs cfg s p).stats := by
  unfold makedirs
  split
  · exact statsLE_refl _
  split
  · exact statsLE_refl _
  · exact statsLE_refl _

theorem move_statsLE (cfg : MergeConfig) (s : MergeState) (a b : Path)
    (d : Bool) : statsLE s.stats (move cfg s a b d).stats := by
  simp only [move]
  split <;> split <;> (unfold statsLE; simp [ctxLog])

theorem rename_dir_statsLE (cfg : MergeConfig) (s : MergeState) (a b : Path) :
    statsLE s.stats (rename_dir cfg s a b).stats := by
  simp only [rename_dir]
  split <;> (unfold statsLE; simp [ctxLog])

theorem rmdir_statsLE (cfg : MergeConfig) (s : MergeState) (p : Path) :
    statsLE s.stats ((rmdir cfg s p).1).stats := by
  simp only [rmdir]
  repeat' split
  all_goals (unfold statsLE; simp [ctxLog])

theorem resolve_conflict_statsLE (cfg : MergeConfig) (s : MergeState)
    (a b : Path) : statsLE s.stats ((resolve_conflict cfg s a b).1).stats := by
  simp only [resolve_conflict]
  repeat' split
  all_goals (unfold statsLE; simp [ctxLog])

theorem handle_type_conflict_statsLE (cfg : MergeConfig) (s : MergeState)
    (si di : Path) (n : String) (dp : Path) (d : Bool) :
    statsLE s.stats (handle_type_conflict cfg s si di n dp d).stats := by
  simp only [handle_type_conflict]
  split
  · unfold statsLE; simp [ctxLog]
  · refine statsLE_trans ?_ (move_statsLE cfg _ si _ d)
    unfold statsLE; simp [ctxLog]

theorem merge_file_statsLE (cfg : MergeConfig) (s : MergeState)
    (si di : Path) (n : String) (dp : Path) :
    statsLE s.stats (merge_file cfg s si di n dp).stats := by
  unfold merge_file
  split
  · exact handle_type_conflict_statsLE cfg s _ _ _ _ _
  split
  · split
    next s1 r heq =>
      refine statsLE_trans ?_ (move_statsLE cfg s1 si r false)
      have := resolve_conflict_statsLE cfg s dp di
      rw [heq] at this
      exact this
    next s1 heq =>
      have := resolve_conflict_statsLE cfg s dp di
      rw [heq] at this
      exact this
  · exact move_statsLE cfg s _ _ _

theorem merge_directory_statsLE (cfg : MergeConfig)
    (rec : Path → Path → MergeState → MergeState)
    (hrec : ∀ a b s, statsLE s.stats (rec a b s).stats) (s : MergeState)
    (si di : Path) (n : String) (dp : Path) :
    statsLE s.stats (merge_directory cfg rec s si di n dp).stats := by
  unfold merge_directory
  split
  · refine statsLE_trans ?_ (hrec si di _)
    unfold statsLE; simp
  split
  · exact handle_type_conflict_statsLE cfg s _ _ _ _ _
  · refine statsLE_trans ?_ (move_statsLE cfg _ si di true)
    unfold statsLE; simp

theorem mergeItem_statsLE (cfg : MergeConfig)
    (rec : Path → Path → MergeState → MergeState)
    (hrec : ∀ a b s, statsLE s.stats (rec a b s).stats) (src dst : Path)
    (s : MergeState) (n : String) :
    statsLE s.stats (mergeItem cfg rec src dst s n).stats := by
  simp only [mergeItem]
  split
  · exact merge_directory_statsLE cfg _ hrec _ _ _ _ _
  · exact merge_file_statsLE cfg _ _ _ _ _

theorem foldl_statsLE {α : Type} (f : MergeState → α → MergeState)
    (hf : ∀ s a, statsLE s.stats (f s a).stats) :
    ∀ (l : List α) (s : MergeState), statsLE s.stats (l.foldl f s).stats := by
  intro l
  induction l with
  | nil => intro s; exact statsLE_refl _
  | cons a t ih =>
      intro s
      rw [List.foldl_cons]
      exact statsLE_trans (hf s a) (ih (f s a))

theorem merge_trees_statsLE (cfg : MergeConfig) :
    ∀ (fuel : Nat) (src dst : Path) (s : MergeState),
      statsLE s.stats (merge_trees cfg fuel src dst s).stats := by
  intro fuel
  induction fuel with
  | zero => intro src dst s; exact statsLE_refl _
  | succ n ih =>
      intro src dst s
      simp only [merge_trees]
      set s1 := if ¬ pathExistsB s.fs dst then makedirs cfg s dst else s with hs1
      set names := (listdirAt s1.fs src).getD [] with hn
      set s2 := names.foldl (mergeItem cfg (merge_trees cfg n) src dst) s1 with hs2
      have hstep : statsLE s.stats s1.stats := by
        rw [hs1]
        split
        · exact makedirs_statsLE cfg s dst
        · exact statsLE_refl _
      have hfold := foldl_statsLE
        (mergeItem cfg (merge_trees cfg n) src dst)
        (fun s' a => mergeItem_statsLE cfg _ (fun a b s'' => ih a b s'') src dst s' a)
        names s1
      have h2 : statsLE s.stats s2.stats := statsLE_trans hstep hfold
      split
      · exact statsLE_trans h2 (rmdir_statsLE cfg s2 src)
      · exact h2

theorem executeEntry_statsLE (cfg : MergeConfig)
    (fuel total planLen index : Nat) (src dst : Path) (s : MergeState) :
    statsLE s.stats (executeEntry cfg fuel total planLen index src dst s).stats := by
  simp only [executeEntry]
  split
  · rw [ctxProgress_stats, ctxLog_stats]; exact statsLE_refl _
  · rw [ctxProgress_stats]
    split
    · refine statsLE_trans ?_ (merge_trees_statsLE cfg fuel src dst _)
      unfold statsLE; simp [ctxStatus]
    · refine statsLE_trans ?_ (rename_dir_statsLE cfg _ src dst)
      rw [ctxLog_stats, ctxStatus_stats]; exact statsLE_refl _

theorem executeLoop_statsLE (cfg : MergeConfig) (fuel total planLen : Nat) :
    ∀ (index : Nat) (plan : List (Path × Path)) (s : MergeState),
      statsLE s.stats (executeLoop cfg fuel total planLen index plan s).stats := by
  intro index plan
  induction plan generalizing index with
  | nil => intro s; exact statsLE_refl _
  | cons e t ih =>
      intro s
      obtain ⟨a, b⟩ := e
      unfold executeLoop
      exact statsLE_trans (executeEntry_statsLE cfg fuel total planLen index a b s)
        (ih (index + 1) _)

theorem execute_statsLE (cfg : MergeConfig) (fuel : Nat)
    (plan : List (Path × Path)) (s : MergeState) :
    statsLE s.stats (execute cfg fuel plan s).stats :=
  executeLoop_statsLE cfg fuel _ _ 1 plan s

theorem create_archive_statsLE (cfg : MergeConfig) (root : Path)
    (ts : String) (s : MergeState) :
    statsLE s.stats ((create_archive cfg root ts s).1).stats := by
  simp only [create_archive]
  repeat' split
  all_goals (unfold statsLE; simp [ctxLog, ctxStatus])

theorem runMerge_statsLE (cfg : MergeConfig) (fuel : Nat) (ts : String)
    (s : MergeState) (h0 : s.stats.folders_planned = 0) :
    statsLE s.stats (runMerge cfg fuel ts s).stats := by
  simp only [runMerge]
  have hplanned : statsLE s.stats
      { s.stats with folders_planned :=
          (build_plan s.fs cfg.root_path cfg.suffix cfg.ignore_case).length } := by
    unfold statsLE; simp [h0]
  split
  · rw [ctxProgress_stats, ctxStatus_stats, ctxLog_stats]
    exact hplanned
  · rw [ctxProgress_stats, ctxStatus_stats]
    refine statsLE_trans hplanned ?_
    refine statsLE_trans ?_ (execute_statsLE cfg fuel _ _)
    rw [ctxStatus_stats]
    split
    · refine statsLE_trans ?_ (create_archive_statsLE cfg _ ts _)
      rw [ctxLog_stats]; exact statsLE_refl _
    · rw [ctxLog_stats]; exact statsLE_refl _

/-- C10.  Every `OperationStats` counter is a natural number (hence
non-negative) and is monotonically non-decreasing across every operation of a
run: no context primitive, executor step, recursive merge, backup operation,
or whole run (started, as every run is, from a context whose
`folders_planned` is still at its initial `0`) ever decreases any counter. -/
theorem stats_counters_monotone :
    (∀ cfg s p, statsLE s.stats (makedirs cfg s p).stats) ∧
    (∀ cfg s a b d, statsLE s.stats (move cfg s a b d).stats) ∧
    (∀ cfg s a b, statsLE s.stats (rename_dir cfg s a b).stats) ∧
    (∀ cfg s p, statsLE s.stats ((rmdir cfg s p).1).stats) ∧
    (∀ cfg s a b, statsLE s.stats ((resolve_conflict cfg s a b).1).stats) ∧
    (∀ cfg s si di n dp d,
      statsLE s.stats (handle_type_conflict cfg s si di n dp d).stats) ∧
    (∀ cfg fuel src dst s,
      statsLE s.stats (merge_trees cfg fuel src dst s).stats) ∧
    (∀ cfg fuel plan s, statsLE s.stats (execute cfg fuel plan s).stats) ∧
    (∀ cfg root ts s, statsLE s.stats ((create_archive cfg root ts s).1).stats) ∧
    (∀ cfg fuel ts s, s.stats.folders_planned = 0 →
      statsLE s.stats (runMerge cfg fuel ts s).stats) :=
  ⟨makedirs_statsLE, move_statsLE, rename_dir_statsLE, rmdir_statsLE,
   resolve_conflict_statsLE, handle_type_conflict_statsLE,
   merge_trees_statsLE, execute_statsLE, create_archive_statsLE,
   fun cfg fuel ts s h0 => runMerge_statsLE cfg fuel ts s h0⟩

/-- Witness for C10: instantiating the run clause on the live scenario run
(whose initial context is fresh, `folders_planned = 0`). -/
theorem stats_counters_monotone_witness :
    statsLE (MergeState.mk exFS {} [] [] []).stats
      (runMerge cfgLive 4 ("ts") (MergeState.mk exFS {} [] [] [])).stats :=
  stats_counters_monotone.2.2.2.2.2.2.2.2.2 cfgLive 4 ("ts")
    (MergeState.mk exFS {} [] [] []) rfl

/-! ### C4: dry-run statistics versus live statistics -/

/-- C4 counterexample.  On the spec's own scenario tree `{A_old/{x.txt}, A/{}}`
the dry run and the live run produce different `OperationStats`: the live run
empties `A_old` and deletes it (`dirs_deleted = 1`), while the dry run, which
re-reads the unmutated tree, still sees `x.txt` inside `A_old`, never
simulates the `rmdir`, and reports `dirs_deleted = 0`.  So the claim that a
dry run produces the same counter values as the live run is false. -/
theorem dry_live_stats_differ :
    (runMerge cfgDry 4 ("ts") exState).stats ≠
      (runMerge cfgLive 4 ("ts") exState).stats := by
  decide

/-- C4 (amended).  Dry-run statistics are computed against the unmutated tree
and therefore need not equal live-run statistics.  On the scenario tree
`{A_old/{x.txt}, A/{}}` the two runs agree on every counter except
`dirs_deleted`, where the live run reports `1` (the drained source directory
is removed) and the dry run reports `0` (the source still appears
non-empty). -/
theorem dry_live_stats_comparison :
    ((runMerge cfgDry 4 ("ts") exState).stats.folders_planned =
       (runMerge cfgLive 4 ("ts") exState).stats.folders_planned) ∧
    ((runMerge cfgDry 4 ("ts") exState).stats.folders_merged =
       (runMerge cfgLive 4 ("ts") exState).stats.folders_merged) ∧
    ((runMerge cfgDry 4 ("ts") exState).stats.folders_renamed =
       (runMerge cfgLive 4 ("ts") exState).stats.folders_renamed) ∧
    ((runMerge cfgDry 4 ("ts") exState).stats.files_moved =
       (runMerge cfgLive 4 ("ts") exState).stats.files_moved) ∧
    ((runMerge cfgDry 4 ("ts") exState).stats.items_skipped =
       (runMerge cfgLive 4 ("ts") exState).stats.items_skipped) ∧
    ((runMerge cfgDry 4 ("ts") exState).stats.name_conflicts =
       (runMerge cfgLive 4 ("ts") exState).stats.name_conflicts) ∧
    ((runMerge cfgDry 4 ("ts") exState).stats.backups_created =
       (runMerge cfgLive 4 ("ts") exState).stats.backups_created) ∧
    (runMerge cfgDry 4 ("ts") exState).stats.dirs_deleted = 0 ∧
    (runMerge cfgLive 4 ("ts") exState).stats.dirs_deleted = 1 := by
  decide

/-! ### C9: `rmdir` removes only empty directories and swallows errors -/

/-- C9.  In live mode (`OperationContext` methods branch uniformly on
`dry_run`; the dry branch of `rmdir` only simulates), `rmdir` removes the
directory exactly when the path denotes an empty directory, returning `true`
and counting it; in every other case (non-empty directory, file, missing
path — all the `OSError` cases) it swallows the error, leaves the filesystem
unchanged and returns `false`.  Its result is `true` exactly when the removal
succeeded. -/
theorem rmdir_spec (cfg : MergeConfig) (hlive : cfg.dry_run = false)
    (s : MergeState) (p : Path) :
    ((rmdir cfg s p).2 = true ↔ lookup s.fs p = some (.dir .nil)) ∧
    (lookup s.fs p = some (.dir .nil) →
      rmdir cfg s p =
        (MergeState.mk (removeNode s.fs p)
          { s.stats with dirs_deleted := s.stats.dirs_deleted + 1 }
          s.log s.progressEvents s.statusEvents, true)) ∧
    (lookup s.fs p ≠ some (.dir .nil) → rmdir cfg s p = (s, false)) := by
  refine ⟨?_, ?_, ?_⟩
  · simp only [rmdir, hlive]
    cases hl : lookup s.fs p with
    | none => simp
    | some t =>
        cases t with
        | file c => simp
        | dir es =>
            cases es with
            | nil => simp
            | cons n u r => simp
  · intro hl
    simp only [rmdir, hlive, hl]
    rfl
  · intro hl
    simp only [rmdir, hlive]
    cases hl2 : lookup s.fs p with
    | none => simp
    | some t =>
        cases t with
        | file c => simp
        | dir es =>
            cases es with
            | nil => exact absurd hl2 hl
            | cons n u r => simp

/-- Witness for C9: on the tree `{empty/{}, full/{f}}`, live `rmdir` deletes
`empty` (returning `true`) and refuses `full` (returning `false`, state
untouched). -/
theorem rmdir_spec_witness :
    (rmdir cfgLive stRm [("empty")]).2 = true ∧
      rmdir cfgLive stRm [("full")] = (stRm, false) :=
  ⟨((rmdir_spec cfgLive rfl stRm [("empty")]).1).mpr rfl,
   (rmdir_spec cfgLive rfl stRm [("full")]).2.2 (fun hc => nomatch hc)⟩

/-! ### C5: the `resolve_conflict` dispatch -/

/-- C5.  `resolve_conflict(dst_dir, dst_path)` behaves exactly as dispatched:
a non-existing `dst_path` is returned unchanged with no counter change;
otherwise `Skip` logs, increments `items_skipped` and `name_conflicts` by one
each and returns the skip outcome (`none`); `Overwrite` logs, increments
`name_conflicts` by one, deletes the existing target only when not in
dry-run, and returns `dst_path`; `Rename` logs, increments `name_conflicts`
by one and returns the result of `generate_unique_path`. -/
theorem resolve_conflict_spec (cfg : MergeConfig) (s : MergeState)
    (dd dp : Path) :
    (pathExistsB s.fs dp = false → resolve_conflict cfg s dd dp = (s, some dp)) ∧
    (pathExistsB s.fs dp = true → cfg.conflict_mode = .skip →
      resolve_conflict cfg s dd dp =
        (MergeState.mk s.fs
          { s.stats with items_skipped := s.stats.items_skipped + 1,
                         name_conflicts := s.stats.name_conflicts + 1 }
          (s.log ++ [skipExistsMsg (basename dp)]) s.progressEvents
          s.statusEvents, none)) ∧
    (pathExistsB s.fs dp = true → cfg.conflict_mode = .overwrite →
      resolve_conflict cfg s dd dp =
        (MergeState.mk (if cfg.dry_run then s.fs else removeFileAt s.fs dp)
          { s.stats with name_conflicts := s.stats.name_conflicts + 1 }
          (s.log ++ [overwriteMsg (basename dp)]) s.progressEvents
          s.statusEvents, some dp)) ∧
    (pathExistsB s.fs dp = true → cfg.conflict_mode = .rename →
      resolve_conflict cfg s dd dp =
        (MergeState.mk s.fs
          { s.stats with name_conflicts := s.stats.name_conflicts + 1 }
          (s.log ++ [renameMsg (basename dp)
            (basename (generate_unique_path s.fs dd (basename dp)))])
          s.progressEvents s.statusEvents,
          some (generate_unique_path s.fs dd (basename dp)))) := by
  refine ⟨?_, ?_, ?_, ?_⟩
  · intro h
    simp only [resolve_conflict, h]
    rfl
  · intro h hm
    simp only [resolve_conflict, h, hm]
    rfl
  · intro h hm
    simp only [resolve_conflict, h, hm]
    cases hd : cfg.dry_run <;> simp [hd, ctxLog]
  · intro h hm
    simp only [resolve_conflict, h, hm]
    rfl

/-- Witness for C5: the four dispatch branches on the scenario tree (the
destination `A` exists, `nope` does not). -/
theorem resolve_conflict_spec_witness :
    (resolve_conflict cfgLive exState [("x")] [("nope")]
        = (exState, some [("nope")])) ∧
    ((resolve_conflict cfgSkipLive exState [] [("A")]).2 = none) ∧
    ((resolve_conflict cfgSkipLive exState [] [("A")]).1.stats.items_skipped
        = exState.stats.items_skipped + 1) ∧
    ((resolve_conflict cfgSkipLive exState [] [("A")]).1.stats.name_conflicts
        = exState.stats.name_conflicts + 1) ∧
    ((resolve_conflict cfgOvwLive exState [] [("A")]).2 = some [("A")]) ∧
    ((resolve_conflict cfgLive exState [("A_old")] [("A")]).2
        = some (generate_unique_path exState.fs [("A_old")] (basename [("A")]))) := by
  refine ⟨(resolve_conflict_spec cfgLive exState _ _).1 (by decide),
    ?_, ?_, ?_, ?_, ?_⟩
  · rw [(resolve_conflict_spec cfgSkipLive exState [] [("A")]).2.1 (by decide) rfl]
  · rw [(resolve_conflict_spec cfgSkipLive exState [] [("A")]).2.1 (by decide) rfl]
  · rw [(resolve_conflict_spec cfgSkipLive exState [] [("A")]).2.1 (by decide) rfl]
  · rw [(resolve_conflict_spec cfgOvwLive exState [] [("A")]).2.2.1 (by decide) rfl]
  · rw [(resolve_conflict_spec cfgLive exState [("A_old")] [("A")]).2.2.2 (by decide) rfl]

/-! ### Injectivity of `Nat.repr` (needed for the unique-name search) -/

theorem toDigitsCore_append (b : Nat) :
    ∀ (fuel n : Nat) (ds : List Char),
      Nat.toDigitsCore b fuel n ds = Nat.toDigitsCore b fuel n [] ++ ds := by
  intro fuel
  induction fuel with
  | zero => intro n ds; rfl
  | succ f ih =>
      intro n ds
      simp only [Nat.toDigitsCore]
      split
      · rfl
      · rw [ih (n / b) (Nat.digitChar (n % b) :: ds),
          ih (n / b) [Nat.digitChar (n % b)]]
        simp

theorem toDigitsCore_fuel_eq (b : Nat) (hb : 1 < b) :
    ∀ (n fuel fuel' : Nat), n < fuel → n < fuel' →
      Nat.toDigitsCore b fuel n [] = Nat.toDigitsCore b fuel' n [] := by
  intro n
  induction n using Nat.strong_induction_on with
  | _ n ih =>
      intro fuel fuel' hf hf'
      cases fuel with
      | zero => omega
      | succ f =>
          cases fuel' with
          | zero => omega
          | succ f' =>
              simp only [Nat.toDigitsCore]
              by_cases h0 : n / b = 0
              · simp [h0]
              · have hn : 0 < n := by
                  rcases Nat.eq_zero_or_pos n with h | h
                  · subst h; simp [Nat.zero_div] at h0
                  · exact h
                have hdiv : n / b < n := Nat.div_lt_self hn hb
                simp only [h0, if_neg]
                rw [toDigitsCore_append b f, toDigitsCore_append b f']
                rw [ih (n / b) hdiv f f' (by omega) (by omega)]

theorem toDigits_unfold (n : Nat) :
    Nat.toDigits 10 n =
      if n < 10 then [Nat.digitChar n]
      else Nat.toDigits 10 (n / 10) ++ [Nat.digitChar (n % 10)] := by
  unfold Nat.toDigits
  by_cases h0 : n / 10 = 0
  · have hlt : n < 10 := (Nat.div_eq_zero_iff (by norm_num)).mp h0
    simp only [Nat.toDigitsCore, h0, if_pos, hlt, if_true]
    rw [Nat.mod_eq_of_lt hlt]
  · have hge : ¬ n < 10 := fun hlt =>
      h0 ((Nat.div_eq_zero_iff (by norm_num)).mpr hlt)
    have hn : 0 < n := by omega
    simp only [Nat.toDigitsCore, h0, if_neg, hge, if_false]
    rw [toDigitsCore_append 10 n (n / 10)]
    have := toDigitsCore_fuel_eq 10 (by norm_num) (n / 10) n (n / 10 + 1)
      (by have := Nat.div_lt_self hn (by norm_num : (1:Nat) < 10); omega)
      (by omega)
    rw [this]
    simp only [Nat.toDigitsCore]

theorem digitChar_fin_inj :
    ∀ a : Fin 10, ∀ b : Fin 10,
      Nat.digitChar a.val = Nat.digitChar b.val → a = b := by decide

theorem toDigits_ne_nil (n : Nat) : Nat.toDigits 10 n ≠ [] := by
  rw [toDigits_unfold]
  split <;> simp

theorem toDigits_injective :
    ∀ a b : Nat, Nat.toDigits 10 a = Nat.toDigits 10 b → a = b := by
  intro a
  induction a using Nat.strong_induction_on with
  | _ a ih =>
      intro b h
      rw [toDigits_unfold a, toDigits_unfold b] at h
      by_cases ha : a < 10 <;> by_cases hb : b < 10
      · rw [if_pos ha, if_pos hb] at h
        have h1 : Nat.digitChar a = Nat.digitChar b := by
          simpa using h
        have := digitChar_fin_inj ⟨a, ha⟩ ⟨b, hb⟩ h1
        exact congrArg Fin.val this
      · rw [if_pos ha, if_neg hb] at h
        exfalso
        have hlen := congrArg List.length h
        simp at hlen
        exact toDigits_ne_nil (b / 10) hlen
      · rw [if_neg ha, if_pos hb] at h
        exfalso
        have hlen := congrArg List.length h
        simp at hlen
        exact toDigits_ne_nil (a / 10) hlen
      · rw [if_neg ha, if_neg hb] at h
        have h2 := congrArg List.reverse h
        simp only [List.reverse_append, List.reverse_cons, List.reverse_nil,
          List.nil_append, List.singleton_append] at h2
        have hxy : Nat.digitChar (a % 10) = Nat.digitChar (b % 10) :=
          (List.cons.injEq _ _ _ _ ▸ h2).1
        have hAB : (Nat.toDigits 10 (a / 10)).reverse
            = (Nat.toDigits 10 (b / 10)).reverse :=
          (List.cons.injEq _ _ _ _ ▸ h2).2
        have hdiv : a / 10 = b / 10 := by
          refine ih (a / 10) (Nat.div_lt_self (by omega) (by norm_num)) (b / 10) ?_
          exact List.reverse_injective hAB
        have hmod : a % 10 = b % 10 := by
          have := digitChar_fin_inj ⟨a % 10, Nat.mod_lt _ (by norm_num)⟩
            ⟨b % 10, Nat.mod_lt _ (by norm_num)⟩ hxy
          exact congrArg Fin.val this
        have ha10 := Nat.div_add_mod a 10
        have hb10 := Nat.div_add_mod b 10
        omega

theorem nat_repr_injective : Function.Injective Nat.repr := by
  intro a b h
  refine toDigits_injective a b ?_
  have hd := congrArg String.data h
  simpa [Nat.repr, List.asString] using hd

theorem numberedName_injective (base ext : String) :
    Function.Injective (numberedName base ext) := by
  intro j k h
  unfold numberedName at h
  have hd := congrArg String.data h
  simp only [String.data_append, List.append_assoc] at hd
  have h1 := List.append_cancel_left hd
  have h2 := List.append_cancel_left h1
  have h3 := List.append_cancel_right h2
  refine nat_repr_injective ?_
  cases hj : Nat.repr j
  cases hk : Nat.repr k
  rw [hj, hk] at h3
  simp only at h3
  rw [h3]

/-! ### The unique-path loop never returns an existing path (towards C8) -/

theorem lookup_append (t : FSTree) (p q : Path) :
    lookup t (p ++ q) = (lookup t p).bind (fun u => lookup u q) := by
  induction p generalizing t with
  | nil => simp [lookup]
  | cons n rest ih =>
      cases t with
      | file c => simp [lookup]
      | dir es =>
          simp only [List.cons_append, lookup]
          cases es.toList.find? (fun e => e.1 == n) with
          | none => rfl
          | some e => exact ih e.2

theorem exists_append_mem (fs : FSTree) (p : Path) (x : String)
    (h : pathExistsB fs (p ++ [x]) = true) :
    x ∈ (listdirAt fs p).getD [] := by
  unfold pathExistsB at h
  rw [lookup_append fs p [x]] at h
  cases hl : lookup fs p with
  | none => rw [hl] at h; simp at h
  | some u =>
      rw [hl] at h
      cases u with
      | file c => simp [lookup] at h
      | dir es =>
          simp only [Option.some_bind] at h
          cases hf : es.toList.find? (fun e => e.1 == x) with
          | none => simp [lookup, hf] at h
          | some e =>
              have hmem := List.mem_of_find?_eq_some hf
              have heq : e.1 = x := by simpa using List.find?_some hf
              simp only [listdirAt, hl, namesOf, Option.getD_some]
              exact List.mem_map.mpr ⟨e, hmem, heq⟩

theorem genLoop_not_exists (fs : FSTree) (dir : Path) (base ext : String) :
    ∀ (fuel : Nat) (cand : String) (counter : Nat),
      (pathExistsB fs (dir ++ [cand]) = false ∨
        ∃ k, counter ≤ k ∧ k < counter + fuel ∧
          pathExistsB fs (dir ++ [numberedName base ext k]) = false) →
      pathExistsB fs (genLoop fs dir base ext fuel cand counter) = false := by
  intro fuel
  induction fuel with
  | zero =>
      intro cand counter H
      rcases H with h | ⟨k, hk1, hk2, _⟩
      · exact h
      · omega
  | succ f ih =>
      intro cand counter H
      simp only [genLoop]
      by_cases hex : pathExistsB fs (dir ++ [cand]) = true
      · rw [if_pos hex]
        apply ih
        rcases H with h | ⟨k, hk1, hk2, hk3⟩
        · rw [h] at hex; cases hex
        · rcases Nat.eq_or_lt_of_le hk1 with heq | hlt
          · exact Or.inl (heq ▸ hk3)
          · exact Or.inr ⟨k, by omega, by omega, hk3⟩
      · rw [if_neg hex]
        cases hb : pathExistsB fs (dir ++ [cand]) with
        | false => rfl
        | true => exact absurd hb hex

theorem genLoop_shape (fs : FSTree) (dir : Path) (base ext : String) :
    ∀ (fuel : Nat) (cand : String) (counter : Nat),
      genLoop fs dir base ext fuel cand counter = dir ++ [cand] ∨
        ∃ k, counter ≤ k ∧
          genLoop fs dir base ext fuel cand counter
            = dir ++ [numberedName base ext k] := by
  intro fuel
  induction fuel with
  | zero => intro cand counter; exact Or.inl rfl
  | succ f ih =>
      intro cand counter
      simp only [genLoop]
      by_cases hex : pathExistsB fs (dir ++ [cand]) = true
      · rw [if_pos hex]
        rcases ih (numberedName base ext counter) (counter + 1) with h | ⟨k, hk, h⟩
        · exact Or.inr ⟨counter, Nat.le_refl _, h⟩
        · exact Or.inr ⟨k, by omega, h⟩
      · rw [if_neg hex]
        exact Or.inl rfl

theorem generate_unique_path_not_exists (fs : FSTree) (dir : Path)
    (name : String) :
    pathExistsB fs (generate_unique_path fs dir name) = false := by
  simp only [generate_unique_path]
  apply genLoop_not_exists
  by_cases h0 : pathExistsB fs (dir ++ [name]) = false
  · exact Or.inl h0
  · right
    by_contra hc
    push_neg at hc
    have hc' : ∀ k, 1 ≤ k → k < 1 + genFuel fs dir →
        pathExistsB fs (dir ++ [numberedName (splitext name).1
          (splitext name).2 k]) = true := by
      intro k h1 h2
      have := hc k h1 h2
      cases hb : pathExistsB fs (dir ++ [numberedName (splitext name).1
          (splitext name).2 k]) with
      | false => exact absurd hb this
      | true => rfl
    have hnd : ((List.range' 1 (((listdirAt fs dir).getD []).length + 2)).map
        (fun k => numberedName (splitext name).1 (splitext name).2 k)).Nodup :=
      List.Nodup.map (numberedName_injective _ _) (List.nodup_range' _ _)
    have hsub : ∀ x ∈ (List.range' 1 (((listdirAt fs dir).getD []).length + 2)).map
        (fun k => numberedName (splitext name).1 (splitext name).2 k),
        x ∈ (listdirAt fs dir).getD [] := by
      intro x hx
      obtain ⟨k, hk, rfl⟩ := List.mem_map.mp hx
      have hk' := List.mem_range'_1.mp hk
      refine exists_append_mem fs dir _ (hc' k hk'.1 ?_)
      have : genFuel fs dir = ((listdirAt fs dir).getD []).length + 2 := rfl
      omega
    have h1 : ((List.range' 1 (((listdirAt fs dir).getD []).length + 2)).map
        (fun k => numberedName (splitext name).1 (splitext name).2 k)).toFinset.card
        = ((listdirAt fs dir).getD []).length + 2 := by
      rw [List.toFinset_card_of_nodup hnd]
      simp [List.length_range']
    have h2 : ((List.range' 1 (((listdirAt fs dir).getD []).length + 2)).map
        (fun k => numberedName (splitext name).1 (splitext name).2 k)).toFinset
        ⊆ ((listdirAt fs dir).getD []).toFinset := by
      intro x hx
      exact List.mem_toFinset.mpr (hsub x (List.mem_toFinset.mp hx))
    have h3 := Finset.card_le_card h2
    have h4 := List.toFinset_card_le ((listdirAt fs dir).getD [])
    omega

/-! ### C8: `generate_unique_path` -/

/-- C8.  `generate_unique_path(directory, name)` is a pure (hence
deterministic) function of the filesystem state: it always returns a path
inside `directory` that does not exist there, and the returned name is either
`name` itself (when free) or `name` with an ` (n)` counter (`n ≥ 1`)
inserted before its extension; in particular, for a directory already
containing `data`, `data (1)` and `data (2)`, every call returns
`data (3)`. -/
theorem generate_unique_path_spec :
    (∀ fs dir name, pathExistsB fs (generate_unique_path fs dir name) = false) ∧
    (∀ fs dir name, generate_unique_path fs dir name = dir ++ [name] ∨
      ∃ k, 1 ≤ k ∧ generate_unique_path fs dir name
        = dir ++ [numberedName (splitext name).1 (splitext name).2 k]) ∧
    generate_unique_path fsUnique [("d")] ("data") = [("d"), ("data (3)")] := by
  refine ⟨generate_unique_path_not_exists, ?_, by decide⟩
  intro fs dir name
  simp only [generate_unique_path]
  exact genLoop_shape fs dir (splitext name).1 (splitext name).2
    (genFuel fs dir) name 1

/-! ### C6: cross-type collisions -/

/-- C6.  For every cross-type collision (directory vs file, or file vs
directory): under `Skip` both items are left in place (the filesystem is
untouched) and `items_skipped` and `name_conflicts` are each incremented by
one; under `Rename` and `Overwrite` alike (overwrite is not honored for
cross-type collisions), a unique free name is generated in the destination
parent, the source item is moved there (when not in dry-run; files are
additionally counted in `files_moved` by `move`), and `name_conflicts` is
incremented by one. -/
theorem handle_type_conflict_spec (cfg : MergeConfig) (s : MergeState)
    (si di : Path) (n : String) (dp : Path) (d : Bool) :
    (cfg.conflict_mode = .skip →
      (handle_type_conflict cfg s si di n dp d).fs = s.fs ∧
      (handle_type_conflict cfg s si di n dp d).stats =
        { s.stats with items_skipped := s.stats.items_skipped + 1,
                       name_conflicts := s.stats.name_conflicts + 1 }) ∧
    (cfg.conflict_mode ≠ .skip →
      (handle_type_conflict cfg s si di n dp d).stats =
        { s.stats with
            files_moved := if d then s.stats.files_moved
              else s.stats.files_moved + 1,
            name_conflicts := s.stats.name_conflicts + 1 } ∧
      pathExistsB s.fs (generate_unique_path s.fs dp n) = false ∧
      (∃ nm, generate_unique_path s.fs dp n = dp ++ [nm]) ∧
      (cfg.dry_run = false →
        (handle_type_conflict cfg s si di n dp d).fs =
          moveFS s.fs si (generate_unique_path s.fs dp n))) := by
  constructor
  · intro hm
    simp [handle_type_conflict, hm, ctxLog]
  · intro hm
    refine ⟨?_, generate_unique_path_not_exists s.fs dp n, ?_, ?_⟩
    · cases d <;> simp [handle_type_conflict, hm, move, ctxLog] <;>
        cases hd : cfg.dry_run <;> simp [ctxLog]
    · rcases genLoop_shape s.fs dp (splitext n).1 (splitext n).2
        (genFuel s.fs dp) n 1 with h | ⟨k, _, h⟩
      · exact ⟨n, h⟩
      · exact ⟨numberedName (splitext n).1 (splitext n).2 k, h⟩
    · intro hd
      cases d <;> simp [handle_type_conflict, hm, move, hd, ctxLog]

/-- Witness for C6, on the scenario `B_old/{item}` (file) vs `B/{item}`
(directory): under `Skip` the filesystem stays untouched and both counters
rise by one; under `Rename` (live) the file is moved to the generated free
name inside `B`. -/
theorem handle_type_conflict_spec_witness :
    ((handle_type_conflict cfgSkipLive stType [("B_old"), ("item")]
        [("B"), ("item")] ("item") [("B")] false).fs = stType.fs) ∧
    ((handle_type_conflict cfgSkipLive stType [("B_old"), ("item")]
        [("B"), ("item")] ("item") [("B")] false).stats =
      { stType.stats with
          items_skipped := stType.stats.items_skipped + 1,
          name_conflicts := stType.stats.name_conflicts + 1 }) ∧
    (pathExistsB stType.fs (generate_unique_path stType.fs [("B")] ("item"))
      = false) ∧
    ((handle_type_conflict cfgLive stType [("B_old"), ("item")]
        [("B"), ("item")] ("item") [("B")] false).fs =
      moveFS stType.fs [("B_old"), ("item")]
        (generate_unique_path stType.fs [("B")] ("item"))) :=
  ⟨((handle_type_conflict_spec cfgSkipLive stType [("B_old"), ("item")]
      [("B"), ("item")] ("item") [("B")] false).1 rfl).1,
   ((handle_type_conflict_spec cfgSkipLive stType [("B_old"), ("item")]
      [("B"), ("item")] ("item") [("B")] false).1 rfl).2,
   ((handle_type_conflict_spec cfgLive stType [("B_old"), ("item")]
      [("B"), ("item")] ("item") [("B")] false).2 (by decide)).2.1,
   ((handle_type_conflict_spec cfgLive stType [("B_old"), ("item")]
      [("B"), ("item")] ("item") [("B")] false).2 (by decide)).2.2.2 rfl⟩

/-! ### Only `execute` (and the run driver) report progress -/

theorem ctxProgress_events (s : MergeState) (v : ℚ) :
    (ctxProgress s v).progressEvents = s.progressEvents ++ [max 0 (min 1 v)] :=
  rfl

theorem makedirs_events (cfg : MergeConfig) (s : MergeState) (p : Path) :
    (makedirs cfg s p).progressEvents = s.progressEvents := by
  unfold makedirs
  split
  · rfl
  split <;> rfl

theorem move_events (cfg : MergeConfig) (s : MergeState) (a b : Path)
    (d : Bool) : (move cfg s a b d).progressEvents = s.progressEvents := by
  cases hd : cfg.dry_run <;> cases d <;> simp [move, hd, ctxLog]

theorem rename_dir_events (cfg : MergeConfig) (s : MergeState) (a b : Path) :
    (rename_dir cfg s a b).progressEvents = s.progressEvents := by
  simp only [rename_dir]
  split <;> rfl

theorem rmdir_events (cfg : MergeConfig) (s : MergeState) (p : Path) :
    ((rmdir cfg s p).1).progressEvents = s.progressEvents := by
  simp only [rmdir]
  repeat' split
  all_goals rfl

theorem resolve_conflict_events (cfg : MergeConfig) (s : MergeState)
    (a b : Path) :
    ((resolve_conflict cfg s a b).1).progressEvents = s.progressEvents := by
  simp only [resolve_conflict]
  repeat' split
  all_goals rfl

theorem handle_type_conflict_events (cfg : MergeConfig) (s : MergeState)
    (si di : Path) (n : String) (dp : Path) (d : Bool) :
    (handle_type_conflict cfg s si di n dp d).progressEvents
      = s.progressEvents := by
  simp only [handle_type_conflict]
  split
  · rfl
  · rw [move_events]
    rfl

theorem merge_file_events (cfg : MergeConfig) (s : MergeState)
    (si di : Path) (n : String) (dp : Path) :
    (merge_file cfg s si di n dp).progressEvents = s.progressEvents := by
  unfold merge_file
  split
  · exact handle_type_conflict_events cfg _ _ _ _ _ _
  split
  · split
    next s1 r heq =>
      rw [move_events]
      have := resolve_conflict_events cfg s dp di
      rw [heq] at this
      exact this
    next s1 heq =>
      have := resolve_conflict_events cfg s dp di
      rw [heq] at this
      exact this
  · exact move_events cfg _ _ _ _

theorem merge_directory_events (cfg : MergeConfig)
    (rec : Path → Path → MergeState → MergeState)
    (hrec : ∀ a b s, (rec a b s).progressEvents = s.progressEvents)
    (s : MergeState) (si di : Path) (n : String) (dp : Path) :
    (merge_directory cfg rec s si di n dp).progressEvents
      = s.progressEvents := by
  unfold merge_directory
  split
  · rw [hrec]
  split
  · exact handle_type_conflict_events cfg _ _ _ _ _ _
  · rw [move_events]

theorem mergeItem_events (cfg : MergeConfig)
    (rec : Path → Path → MergeState → MergeState)
    (hrec : ∀ a b s, (rec a b s).progressEvents = s.progressEvents)
    (src dst : Path) (s : MergeState) (n : String) :
    (mergeItem cfg rec src dst s n).progressEvents = s.progressEvents := by
  simp only [mergeItem]
  split
  · exact merge_directory_events cfg _ hrec _ _ _ _ _
  · exact merge_file_events cfg _ _ _ _ _

theorem foldl_events_eq {α : Type} (f : MergeState → α → MergeState)
    (hf : ∀ s a, (f s a).progressEvents = s.progressEvents) :
    ∀ (l : List α) (s : MergeState),
      (l.foldl f s).progressEvents = s.progressEvents := by
  intro l
  induction l with
  | nil => intro s; rfl
  | cons a t ih => intro s; rw [List.foldl_cons, ih, hf]

theorem merge_trees_events (cfg : MergeConfig) :
    ∀ (fuel : Nat) (src dst : Path) (s : MergeState),
      (merge_trees cfg fuel src dst s).progressEvents = s.progressEvents := by
  intro fuel
  induction fuel with
  | zero => intro src dst s; rfl
  | succ f ih =>
      intro src dst s
      simp only [merge_trees]
      have hfold := foldl_events_eq
        (mergeItem cfg (merge_trees cfg f) src dst)
        (fun s' a => mergeItem_events cfg _ (fun a b s'' => ih a b s'') src dst s' a)
      split
      · rw [rmdir_events, hfold]
        split
        · rw [makedirs_events]
        · rfl
      · rw [hfold]
        split
        · rw [makedirs_events]
        · rfl

theorem executeEntry_events (cfg : MergeConfig)
    (fuel total planLen index : Nat) (src dst : Path) (s : MergeState) :
    (executeEntry cfg fuel total planLen index src dst s).progressEvents =
      s.progressEvents ++ [max 0 (min 1 ((index : ℚ) / (total : ℚ)))] := by
  simp only [executeEntry]
  split
  · rfl
  · rw [ctxProgress_events]
    congr 1
    split
    · rw [merge_trees_events]; rfl
    · rw [rename_dir_events]; rfl

theorem executeLoop_events (cfg : MergeConfig) (fuel total planLen : Nat) :
    ∀ (plan : List (Path × Path)) (index : Nat) (s : MergeState),
      (executeLoop cfg fuel total planLen index plan s).progressEvents =
        s.progressEvents ++ (List.range' index plan.length).map
          (fun i : Nat => max 0 (min 1 ((i : ℚ) / (total : ℚ)))) := by
  intro plan
  induction plan with
  | nil => intro index s; simp [executeLoop]
  | cons e t ih =>
      intro index s
      obtain ⟨a, b⟩ := e
      simp only [executeLoop]
      rw [ih, executeEntry_events]
      rw [List.length_cons, List.range'_succ, List.map_cons]
      simp

/-! ### C7: the `execute` loop -/

/-- C7 counterexample.  `execute` on an empty plan is a pure no-op: it
reports no progress at all, so in particular it does not report completion
(`1.0` is never passed to the progress callback), contradicting the claim
that an empty-plan `execute` "still reports completion (progress 1.0)".
(The completion report for the empty plan is issued by the run driver before
`execute` is ever called.) -/
theorem execute_empty_reports_nothing :
    execute cfgDry 3 [] exState = exState ∧
      ¬ ((1 : ℚ) ∈ (execute cfgDry 3 [] exState).progressEvents) :=
  ⟨rfl, fun hm => List.not_mem_nil (1 : ℚ) hm⟩

/-- C7 (amended).  `execute(plan)` iterates the plan in order and, per entry:
if the source no longer exists it logs a not-found line, advances progress,
and continues; if the destination exists it increments `folders_merged` by 1
and recurses into the tree merge; otherwise it performs a plain directory
rename — in each case reporting progress `index / total` (with
`total = len(plan) or 1`) after the entry.  For a non-empty plan the reported
progress sequence is exactly `1/n, 2/n, …, n/n`: strictly increasing, each
value in `(0, 1]`, ending at exactly `1`.  `execute` on an empty plan is a
no-op that reports nothing (the `or 1` denominator only guards the division;
completion for an empty plan is reported by the caller). -/
theorem execute_spec :
    (∀ cfg fuel s, execute cfg fuel [] s = s) ∧
    (∀ cfg fuel plan (s : MergeState), plan ≠ [] →
      (execute cfg fuel plan s).progressEvents =
        s.progressEvents ++ (List.range plan.length).map
          (fun i : Nat => ((i : ℚ) + 1) / (plan.length : ℚ))) ∧
    (∀ n : Nat, n ≠ 0 →
      ((List.range n).map (fun i : Nat => ((i : ℚ) + 1) / (n : ℚ))).Pairwise (· < ·) ∧
      (∀ x ∈ (List.range n).map (fun i : Nat => ((i : ℚ) + 1) / (n : ℚ)),
        0 < x ∧ x ≤ 1) ∧
      ((List.range n).map (fun i : Nat => ((i : ℚ) + 1) / (n : ℚ))).getLast?
        = some 1) ∧
    (∀ cfg fuel total planLen index src dst (s : MergeState),
      (pathExistsB s.fs src = false →
        executeEntry cfg fuel total planLen index src dst s =
          ctxProgress
            (ctxLog s (("⊘ Skipped (not found): ") ++ basename src))
            ((index : ℚ) / (total : ℚ))) ∧
      (pathExistsB s.fs src = true → pathExistsB s.fs dst = true →
        executeEntry cfg fuel total planLen index src dst s =
          ctxProgress
            (merge_trees cfg fuel src dst
              (MergeState.mk s.fs
                { s.stats with
                    folders_merged := s.stats.folders_merged + 1 }
                (s.log ++ [("◈ Merging: ") ++ basename src ++ (" → ")
                  ++ basename dst])
                s.progressEvents
                (s.statusEvents ++ [("Processing ") ++ Nat.repr index
                  ++ ("/") ++ Nat.repr planLen])))
            ((index : ℚ) / (total : ℚ))) ∧
      (pathExistsB s.fs src = true → pathExistsB s.fs dst = false →
        executeEntry cfg fuel total planLen index src dst s =
          ctxProgress
            (rename_dir cfg
              (MergeState.mk s.fs s.stats
                (s.log ++ [("◇ Renaming: ") ++ basename src ++ (" → ")
                  ++ basename dst])
                s.progressEvents
                (s.statusEvents ++ [("Processing ") ++ Nat.repr index
                  ++ ("/") ++ Nat.repr planLen]))
              src dst)
            ((index : ℚ) / (total : ℚ)))) := by
  refine ⟨fun cfg fuel s => rfl, ?_, ?_, ?_⟩
  · intro cfg fuel plan s hne
    have hlen0 : ¬ plan.length = 0 := by
      intro h
      exact hne (List.length_eq_zero.mp h)
    unfold execute
    rw [if_neg hlen0, executeLoop_events]
    congr 1
    rw [show List.range' 1 plan.length = (List.range plan.length).map (· + 1) by
      rw [List.range_eq_range',
        show (fun x => x + 1) = (fun x => 1 + x) by funext x; omega,
        List.map_add_range']]
    rw [List.map_map]
    refine List.map_congr_left ?_
    intro i hi
    have hilt : i < plan.length := List.mem_range.mp hi
    have hnpos : (0 : ℚ) < (plan.length : ℚ) := by
      exact_mod_cast Nat.pos_of_ne_zero hlen0
    have hle : ((i : ℚ) + 1) / (plan.length : ℚ) ≤ 1 := by
      rw [div_le_one hnpos]
      exact_mod_cast hilt
    have hpos : 0 < ((i : ℚ) + 1) / (plan.length : ℚ) :=
      div_pos (by positivity) hnpos
    simp only [Function.comp]
    push_cast
    rw [min_eq_right hle, max_eq_right (le_of_lt hpos)]
  · intro n hn
    have hnpos : (0 : ℚ) < (n : ℚ) := by
      exact_mod_cast Nat.pos_of_ne_zero hn
    refine ⟨?_, ?_, ?_⟩
    · refine List.pairwise_map.mpr ?_
      refine List.Pairwise.imp ?_ (List.pairwise_lt_range n)
      intro a b hab
      rw [div_lt_div_iff_of_pos_right hnpos]
      exact_mod_cast Nat.add_lt_add_right hab 1
    · intro x hx
      obtain ⟨i, hi, rfl⟩ := List.mem_map.mp hx
      have hilt : i < n := List.mem_range.mp hi
      refine ⟨div_pos (by positivity) hnpos, ?_⟩
      rw [div_le_one hnpos]
      exact_mod_cast hilt
    · obtain ⟨m, rfl⟩ := Nat.exists_eq_succ_of_ne_zero hn
      rw [List.range_succ, List.map_append, List.map_cons, List.map_nil,
        List.getLast?_concat]
      congr 1
      rw [div_eq_one_iff_eq (by exact_mod_cast Nat.succ_ne_zero m)]
      push_cast
      ring
  · intro cfg fuel total planLen index src dst s
    refine ⟨?_, ?_, ?_⟩
    · intro h
      simp [executeEntry, h]
    · intro h1 h2
      simp [executeEntry, h1, ctxStatus, ctxLog, ctxStatus_fs, h2]
    · intro h1 h2
      simp [executeEntry, h1, ctxStatus, ctxLog, ctxStatus_fs, h2]

/-- Witness for C7: on the nested scenario the two-entry plan reports
`[1/2, 1]`, and a vanished source is skipped with one progress report. -/
theorem execute_spec_witness :
    ((build_plan fsNested [] ("_old") false) ≠ []) ∧
    ((execute cfgLive 4 (build_plan fsNested [] ("_old") false)
        stNested).progressEvents =
      stNested.progressEvents ++
        (List.range (build_plan fsNested [] ("_old") false).length).map
          (fun i : Nat => ((i : ℚ) + 1) /
            ((build_plan fsNested [] ("_old") false).length : ℚ))) ∧
    (executeEntry cfgLive 2 5 7 3 [("ghost")] [("g")] stNested =
      ctxProgress
        (ctxLog stNested (("⊘ Skipped (not found): ") ++ basename [("ghost")]))
        (((3 : Nat) : ℚ) / ((5 : Nat) : ℚ))) :=
  ⟨by decide,
   execute_spec.2.1 cfgLive 4 (build_plan fsNested [] ("_old") false) stNested
     (by decide),
   (execute_spec.2.2.2 cfgLive 2 5 7 3 [("ghost")] [("g")] stNested).1
     (by decide)⟩

/-! ### Well-formed trees, lookups and the post-order walk (towards C2, C3) -/

theorem nodupB_iff (l : List String) : nodupB l = true ↔ l.Nodup := by
  induction l with
  | nil => simp [nodupB]
  | cons n rest ih =>
      simp only [nodupB, Bool.and_eq_true, Bool.not_eq_true', List.nodup_cons]
      rw [ih]
      constructor
      · rintro ⟨h1, h2⟩
        refine ⟨fun hm => ?_, h2⟩
        rw [show rest.contains n = rest.elem n from rfl] at h1
        rw [List.elem_eq_true_of_mem hm] at h1
        cases h1
      · rintro ⟨h1, h2⟩
        refine ⟨?_, h2⟩
        cases hc : rest.contains n with
        | false => rfl
        | true =>
            exact absurd (List.elem_iff.mp hc) h1

theorem wfT_dir {es : FSEntries} (h : wfT (.dir es) = true) :
    nodupB (namesOf es) = true ∧ wfEs es = true := by
  simpa [wfT, Bool.and_eq_true] using h

theorem wfEs_cons {n : String} {t : FSTree} {rest : FSEntries}
    (h : wfEs (.cons n t rest) = true) :
    wfT t = true ∧ wfEs rest = true := by
  simpa [wfEs, Bool.and_eq_true] using h

theorem wfEs_mem :
    ∀ (es : FSEntries) (e : String × FSTree), e ∈ es.toList →
      wfEs es = true → wfT e.2 = true
  | .nil, e, he, _ => by simp [FSEntries.toList] at he
  | .cons n t rest, e, he, hwf => by
      rcases List.mem_cons.mp (by simpa [FSEntries.toList] using he) with h | h
      · rw [h]
        exact (wfEs_cons hwf).1
      · exact wfEs_mem rest e h (wfEs_cons hwf).2

theorem wfT_lookup :
    ∀ (p : Path) (t t' : FSTree), wfT t = true → lookup t p = some t' →
      wfT t' = true := by
  intro p
  induction p with
  | nil =>
      intro t t' h hl
      simp only [lookup, Option.some.injEq] at hl
      rw [← hl]
      exact h
  | cons n rest ih =>
      intro t t' h hl
      cases t with
      | file c => simp [lookup] at hl
      | dir es =>
          simp only [lookup] at hl
          cases hf : es.toList.find? (fun e => e.1 == n) with
          | none => rw [hf] at hl; cases hl
          | some e =>
              rw [hf] at hl
              exact ih e.2 t'
                (wfEs_mem es e (List.mem_of_find?_eq_some hf) (wfT_dir h).2) hl

theorem entry_walk_mem :
    ∀ (es : FSEntries) (n : String) (t' : FSTree) (p : Path)
      (y : Path × List String),
      (n, t') ∈ es.toList → y ∈ walkT (p ++ [n]) t' → y ∈ walkEs p es
  | .nil, n, t', p, y, hm, _ => by simp [FSEntries.toList] at hm
  | .cons m u rest, n, t', p, y, hm, hy => by
      have hm' : (n = m ∧ t' = u) ∨ (n, t') ∈ rest.toList := by
        simpa [FSEntries.toList] using hm
      rcases hm' with ⟨h1, h2⟩ | h
      · simp only [walkEs, List.mem_append]
        left
        rw [h1, h2] at hy
        exact hy
      · simp only [walkEs, List.mem_append]
        right
        exact entry_walk_mem rest n t' p y h hy

theorem lookup_walk_mem :
    ∀ (rel : Path) (t : FSTree) (es : FSEntries) (p : Path),
      lookup t rel = some (.dir es) →
      (p ++ rel, dirNamesOf es) ∈ walkT p t := by
  intro rel
  induction rel with
  | nil =>
      intro t es p hl
      simp only [lookup, Option.some.injEq] at hl
      rw [hl]
      simp [walkT]
  | cons n rest ih =>
      intro t es p hl
      cases t with
      | file c => simp [lookup] at hl
      | dir es0 =>
          simp only [lookup] at hl
          cases hf : es0.toList.find? (fun e => e.1 == n) with
          | none => rw [hf] at hl; cases hl
          | some e =>
              rw [hf] at hl
              have hm := List.mem_of_find?_eq_some hf
              have he1 : e.1 = n := by simpa using List.find?_some hf
              have hy := ih e.2 es (p ++ [n]) hl
              have hmem : (n, e.2) ∈ es0.toList := by
                rw [← he1]
                exact hm
              have := entry_walk_mem es0 n e.2 p _ hmem hy
              simp only [walkT, List.mem_append]
              left
              have harr : (p ++ [n]) ++ rest = p ++ n :: rest := by
                rw [List.append_assoc]
                rfl
              rw [harr] at this
              exact this

mutual
theorem walkT_mem :
    ∀ (t : FSTree) (p : Path) (x : Path × List String), wfT t = true →
      x ∈ walkT p t →
      ∃ rel es, x.1 = p ++ rel ∧ lookup t rel = some (.dir es) ∧
        x.2 = dirNamesOf es
  | .file c, p, x, _, hx => by simp [walkT] at hx
  | .dir es, p, x, hwf, hx => by
      have hx' : x ∈ walkEs p es ∨ x = (p, dirNamesOf es) := by
        simpa [walkT] using hx
      rcases hx' with h | h
      · obtain ⟨n, t', hfind, rel, es', h1, h2, h3⟩ :=
          walkEs_mem es p x (wfT_dir hwf).2 (wfT_dir hwf).1 h
        exact ⟨n :: rel, es', h1, by simp [lookup, hfind, h2], h3⟩
      · exact ⟨[], es, by simp [h], rfl, by simp [h]⟩

theorem walkEs_mem :
    ∀ (es : FSEntries) (p : Path) (x : Path × List String), wfEs es = true →
      nodupB (namesOf es) = true → x ∈ walkEs p es →
      ∃ n t', es.toList.find? (fun e => e.1 == n) = some (n, t') ∧
        ∃ rel es', x.1 = p ++ n :: rel ∧ lookup t' rel = some (.dir es') ∧
          x.2 = dirNamesOf es'
  | .nil, p, x, _, _, hx => by simp [walkEs] at hx
  | .cons m u rest, p, x, hwf, hnd, hx => by
      have hx' : x ∈ walkT (p ++ [m]) u ∨ x ∈ walkEs p rest := by
        simpa [walkEs] using hx
      rcases hx' with h | h
      · obtain ⟨rel, es', h1, h2, h3⟩ :=
          walkT_mem u (p ++ [m]) x (wfEs_cons hwf).1 h
        refine ⟨m, u, ?_, rel, es', ?_, h2, h3⟩
        · rw [show (FSEntries.cons m u rest).toList
              = (m, u) :: rest.toList from rfl]
          exact List.find?_cons_of_pos _ (by simp)
        · rw [h1, List.append_assoc]
          rfl
      · have hnd2 : ((namesOf rest).contains m) = false ∧
            nodupB (namesOf rest) = true := by
          have h0 : (!(namesOf rest).contains m) = true ∧
              nodupB (namesOf rest) = true := by
            simpa [namesOf, FSEntries.toList, nodupB, Bool.and_eq_true]
              using hnd
          exact ⟨by simpa using h0.1, h0.2⟩
        obtain ⟨n, t', hfind, rel, es', h1, h2, h3⟩ :=
          walkEs_mem rest p x (wfEs_cons hwf).2 hnd2.2 h
        have hn : n ∈ namesOf rest :=
          List.mem_map.mpr ⟨(n, t'), List.mem_of_find?_eq_some hfind, rfl⟩
        have hne : ((m, u).1 == n) = false := by
          simp only [beq_eq_false_iff_ne, ne_eq]
          intro hmn
          have hc : (namesOf rest).contains m = true := by
            rw [show (namesOf rest).contains m = (namesOf rest).elem m from rfl]
            exact List.elem_eq_true_of_mem (by rw [hmn]; exact hn)
          rw [hnd2.1] at hc
          cases hc
        refine ⟨n, t', ?_, rel, es', h1, h2, h3⟩
        rw [show (FSEntries.cons m u rest).toList
            = (m, u) :: rest.toList from rfl]
        rw [show List.find? (fun e => e.1 == n) ((m, u) :: rest.toList)
            = List.find? (fun e => e.1 == n) rest.toList by
          simp [List.find?_cons, hne]]
        exact hfind
end

mutual
theorem walkT_pref :
    ∀ (t : FSTree) (p : Path) (x : Path × List String), x ∈ walkT p t →
      p <+: x.1
  | .file c, p, x, hx => by simp [walkT] at hx
  | .dir es, p, x, hx => by
      have hx' : x ∈ walkEs p es ∨ x = (p, dirNamesOf es) := by
        simpa [walkT] using hx
      rcases hx' with h | h
      · obtain ⟨n, _, hpre⟩ := walkEs_pref es p x h
        exact (List.prefix_append p [n]).trans hpre
      · rw [h]

theorem walkEs_pref :
    ∀ (es : FSEntries) (p : Path) (x : Path × List String), x ∈ walkEs p es →
      ∃ n, n ∈ namesOf es ∧ (p ++ [n]) <+: x.1
  | .nil, p, x, hx => by simp [walkEs] at hx
  | .cons m u rest, p, x, hx => by
      have hx' : x ∈ walkT (p ++ [m]) u ∨ x ∈ walkEs p rest := by
        simpa [walkEs] using hx
      rcases hx' with h | h
      · exact ⟨m, List.mem_cons_self m _, walkT_pref u (p ++ [m]) x h⟩
      · obtain ⟨n, hn, hpre⟩ := walkEs_pref rest p x h
        exact ⟨n, List.mem_cons_of_mem m hn, hpre⟩
end

mutual
theorem walkT_pw :
    ∀ (t : FSTree) (p : Path), wfT t = true →
      (walkT p t).Pairwise (fun a b => ¬ (a.1 <+: b.1))
  | .file c, p, _ => by simp [walkT]
  | .dir es, p, hwf => by
      simp only [walkT]
      rw [List.pairwise_append]
      refine ⟨walkEs_pw es p (wfT_dir hwf).2 (wfT_dir hwf).1,
        List.pairwise_singleton _ _, ?_⟩
      intro a ha b hb
      have hb2 : b = (p, dirNamesOf es) := by simpa using hb
      obtain ⟨n, _, hpre⟩ := walkEs_pref es p a ha
      intro hcon
      rw [hb2] at hcon
      have h1 : p.length + 1 ≤ a.1.length := by
        simpa using hpre.length_le
      have h2 : a.1.length ≤ p.length := by
        simpa using hcon.length_le
      omega

theorem walkEs_pw :
    ∀ (es : FSEntries) (p : Path), wfEs es = true →
      nodupB (namesOf es) = true →
      (walkEs p es).Pairwise (fun a b => ¬ (a.1 <+: b.1))
  | .nil, p, _, _ => by simp [walkEs]
  | .cons m u rest, p, hwf, hnd => by
      have hnd2 : ((namesOf rest).contains m) = false ∧
          nodupB (namesOf rest) = true := by
        have h0 : (!(namesOf rest).contains m) = true ∧
            nodupB (namesOf rest) = true := by
          simpa [namesOf, FSEntries.toList, nodupB, Bool.and_eq_true] using hnd
        exact ⟨by simpa using h0.1, h0.2⟩
      simp only [walkEs]
      rw [List.pairwise_append]
      refine ⟨walkT_pw u (p ++ [m]) (wfEs_cons hwf).1,
        walkEs_pw rest p (wfEs_cons hwf).2 hnd2.2, ?_⟩
      intro a ha b hb
      have hpa := walkT_pref u (p ++ [m]) a ha
      obtain ⟨n, hn, hpb⟩ := walkEs_pref rest p b hb
      intro hcon
      have hm_ne : m ≠ n := by
        intro hmn
        have hc : (namesOf rest).contains m = true := by
          rw [show (namesOf rest).contains m = (namesOf rest).elem m from rfl]
          exact List.elem_eq_true_of_mem (by rw [hmn]; exact hn)
        rw [hnd2.1] at hc
        cases hc
      have h1 : (p ++ [m]) <+: b.1 := hpa.trans hcon
      have h2 : (p ++ [m]) = (p ++ [n]) := by
        have hle : (p ++ [m]).length ≤ (p ++ [n]).length := by simp
        exact (List.prefix_of_prefix_length_le h1 hpb hle).eq_of_length
          (by simp)
      have h3 := List.append_cancel_left h2
      simp only [List.cons.injEq, and_true] at h3
      exact hm_ne h3
end

theorem walkFS_pw (fs : FSTree) (root : Path) (hwf : wfT fs = true) :
    (walkFS fs root).Pairwise (fun a b => ¬ (a.1 <+: b.1)) := by
  unfold walkFS
  cases hl : lookup fs root with
  | none => simp
  | some t => exact walkT_pw t root (wfT_lookup root fs t hwf hl)

theorem ite_some_conds {α : Type} (c1 c2 : Prop) [Decidable c1]
    [Decidable c2] (v x : α)
    (h : (if c1 then if c2 then some v else none else none) = some x) :
    c1 ∧ c2 ∧ x = v := by
  by_cases hc1 : c1
  · rw [if_pos hc1] at h
    by_cases hc2 : c2
    · rw [if_pos hc2] at h
      exact ⟨hc1, hc2, (Option.some.inj h).symm⟩
    · rw [if_neg hc2] at h
      cases h
  · rw [if_neg hc1] at h
    cases h

theorem filterMap_filter_nil
    (g : Path → String → Option (Path × Path)) (P : Path) (nm : String)
    (Hshape : ∀ Q n x, g Q n = some x → x.1 = Q ++ [n]) :
    ∀ ns : List String, nm ∉ ns →
      ((ns.filterMap (g P)).filter (fun e => e.1 == P ++ [nm])) = [] := by
  intro ns
  induction ns with
  | nil => intro _; rfl
  | cons m rest ih =>
      intro hnot
      rw [List.filterMap_cons]
      have hm_ne : m ≠ nm := fun hc => hnot (hc ▸ List.mem_cons_self m rest)
      cases hgm : g P m with
      | none => exact ih (fun hc => hnot (List.mem_cons_of_mem m hc))
      | some x =>
          rw [List.filter_cons_of_neg]
          · exact ih (fun hc => hnot (List.mem_cons_of_mem m hc))
          · simp only [beq_iff_eq, Hshape P m x hgm]
            intro hc
            have h2 := (List.append_inj' hc rfl).2
            simp only [List.cons.injEq, and_true] at h2
            exact hm_ne h2

theorem filterMap_filter_single
    (g : Path → String → Option (Path × Path)) (P : Path) (nm : String)
    (target : Path × Path)
    (Hshape : ∀ Q n x, g Q n = some x → x.1 = Q ++ [n])
    (Hnm : g P nm = some target) :
    ∀ ns : List String, ns.Nodup → nm ∈ ns →
      ((ns.filterMap (g P)).filter (fun e => e.1 == P ++ [nm])) = [target] := by
  intro ns
  induction ns with
  | nil => intro _ hm; simp at hm
  | cons m rest ih =>
      intro hnd hm
      obtain ⟨hm_nin, hnd_rest⟩ := List.nodup_cons.mp hnd
      rw [List.filterMap_cons]
      rcases List.mem_cons.mp hm with hmeq | hmr
      · rw [← hmeq, Hnm]
        rw [List.filter_cons_of_pos]
        · rw [filterMap_filter_nil g P nm Hshape rest (hmeq ▸ hm_nin)]
        · simp only [beq_iff_eq, Hshape P nm target Hnm]
      · have hm_ne : m ≠ nm := fun hc => hm_nin (hc ▸ hmr)
        cases hgm : g P m with
        | none => exact ih hnd_rest hmr
        | some x =>
            rw [List.filter_cons_of_neg]
            · exact ih hnd_rest hmr
            · simp only [beq_iff_eq, Hshape P m x hgm]
              intro hc
              have h2 := (List.append_inj' hc rfl).2
              simp only [List.cons.injEq, and_true] at h2
              exact hm_ne h2

theorem flatMap_filter_unique
    (W : List (Path × List String)) (g : Path → String → Option (Path × Path))
    (P : Path) (nm : String) (target : Path × Path)
    (hpw : W.Pairwise (fun a b => ¬ (a.1 <+: b.1)))
    (htrip : ∃ ns, (P, ns) ∈ W ∧ ns.Nodup ∧ nm ∈ ns)
    (Hshape : ∀ Q n x, g Q n = some x → x.1 = Q ++ [n])
    (Hnm : g P nm = some target) :
    ((W.flatMap (fun tr => tr.2.filterMap (g tr.1))).filter
      (fun e => e.1 == P ++ [nm])) = [target] := by
  obtain ⟨ns, htr, hnd, hmm⟩ := htrip
  obtain ⟨L1, L2, rfl⟩ := List.append_of_mem htr
  rw [List.flatMap_append, List.flatMap_cons, List.filter_append,
    List.filter_append]
  have hpwl := List.pairwise_append.mp hpw
  have hside : ∀ (L : List (Path × List String)),
      (∀ tr ∈ L, tr.1 ≠ P) →
      ((L.flatMap (fun tr => tr.2.filterMap (g tr.1))).filter
        (fun e => e.1 == P ++ [nm])) = [] := by
    intro L hL
    rw [List.filter_eq_nil_iff]
    intro x hx
    obtain ⟨tr, htr1, hx2⟩ := List.mem_flatMap.mp hx
    obtain ⟨n, _, hg⟩ := List.mem_filterMap.mp hx2
    simp only [beq_iff_eq, Hshape tr.1 n x hg]
    intro hc
    exact hL tr htr1 (List.append_inj' hc rfl).1
  have h1 : ∀ tr ∈ L1, tr.1 ≠ P := by
    intro tr htr1 hc
    exact hpwl.2.2 tr htr1 (P, ns) (List.mem_cons_self _ _) (by rw [hc])
  have h2 : ∀ tr ∈ L2, tr.1 ≠ P := by
    intro tr htr2 hc
    exact (List.pairwise_cons.mp hpwl.2.1).1 tr htr2 (by rw [hc])
  rw [hside L1 h1, hside L2 h2,
    filterMap_filter_single g P nm target Hshape Hnm ns hnd hmm]
  rfl

theorem build_plan_src_shape (fs : FSTree) (root : Path) (suffix : String)
    (ic : Bool) :
    ∀ e ∈ build_plan fs root suffix ic,
      ∃ q n0, e.1 = q ++ [n0] ∧ strLen suffix < strLen n0 := by
  intro e he
  by_cases hs : suffix = (⟨[]⟩ : String)
  · rw [build_plan, if_pos hs] at he
    simp at he
  · simp only [build_plan, if_neg hs] at he
    obtain ⟨tr, htr, hmem⟩ := List.mem_flatMap.mp he
    obtain ⟨n0, hn0, hg⟩ := List.mem_filterMap.mp hmem
    obtain ⟨hc1, hc2, hx⟩ := ite_some_conds _ _ _ e hg
    refine ⟨tr.1, n0, by rw [hx], ?_⟩
    by_contra hlen2
    apply hc2
    have h0 : strLen n0 - strLen suffix = 0 := by omega
    rw [h0]
    rfl

/-- C2.  For every directory `d = par ++ [nm]` in the tree strictly under
`root` whose name ends with the (non-empty, as `MergeConfig` validation
guarantees) suffix — compared case-insensitively when `ignore_case` is
set — and whose name is strictly longer than the suffix, `build_plan`
returns a plan containing exactly one entry with source `d`, namely
`(d, d with the suffix stripped)`, whose source and destination share the
parent `par`; and every plan source's basename is strictly longer than the
suffix, so a directory named exactly the suffix (empty base after
stripping) never appears as a plan source. -/
theorem build_plan_spec (fs : FSTree) (root par : Path) (nm suffix : String)
    (ic : Bool) (hwf : wfT fs = true) (hsuf : suffix ≠ (⟨[]⟩ : String))
    (hroot : root <+: par) (hdir : isDirAtB fs (par ++ [nm]) = true)
    (hmatch : strEndsWith (if ic then strLower nm else nm)
      (if ic then strLower suffix else suffix) = true)
    (hlen : strLen suffix < strLen nm) :
    ((build_plan fs root suffix ic).filter
        (fun e => e.1 == par ++ [nm]) =
      [(par ++ [nm], par ++ [strTake nm (strLen nm - strLen suffix)])]) ∧
    (∀ fs' root' suffix' ic', ∀ e ∈ build_plan fs' root' suffix' ic',
      ∃ q n0, e.1 = q ++ [n0] ∧ strLen suffix' < strLen n0) := by
  refine ⟨?_, fun fs' root' suffix' ic' => build_plan_src_shape fs' root' suffix' ic'⟩
  obtain ⟨rel, rfl⟩ := hroot
  have hdir' : ∃ esd, lookup fs ((root ++ rel) ++ [nm]) = some (.dir esd) := by
    unfold isDirAtB at hdir
    cases hl : lookup fs ((root ++ rel) ++ [nm]) with
    | none => rw [hl] at hdir; cases hdir
    | some t =>
        cases t with
        | file c => rw [hl] at hdir; cases hdir
        | dir es => exact ⟨es, rfl⟩
  obtain ⟨esd, hlook⟩ := hdir'
  rw [List.append_assoc, lookup_append fs root (rel ++ [nm])] at hlook
  cases hroot_look : lookup fs root with
  | none => rw [hroot_look] at hlook; simp at hlook
  | some t0 =>
  rw [hroot_look] at hlook
  simp only [Option.some_bind] at hlook
  have hwt0 : wfT t0 = true := wfT_lookup root fs t0 hwf hroot_look
  rw [lookup_append t0 rel [nm]] at hlook
  cases hrel_look : lookup t0 rel with
  | none => rw [hrel_look] at hlook; simp at hlook
  | some u =>
  rw [hrel_look] at hlook
  simp only [Option.some_bind] at hlook
  cases u with
  | file c => simp [lookup] at hlook
  | dir es1 =>
  have hfind : ∃ e, es1.toList.find? (fun x => x.1 == nm) = some e ∧
      e.1 = nm ∧ e.2 = FSTree.dir esd := by
    simp only [lookup] at hlook
    cases hf : es1.toList.find? (fun x => x.1 == nm) with
    | none => rw [hf] at hlook; cases hlook
    | some e =>
        rw [hf] at hlook
        exact ⟨e, rfl, by simpa using List.find?_some hf,
          by simpa [lookup] using hlook⟩
  obtain ⟨e, hf, he1, he2⟩ := hfind
  have hmem_e := List.mem_of_find?_eq_some hf
  have hwpar : wfT (.dir es1) = true := wfT_lookup rel t0 _ hwt0 hrel_look
  have hnames_nd : (namesOf es1).Nodup :=
    (nodupB_iff (namesOf es1)).mp (wfT_dir hwpar).1
  have hdn_nd : (dirNamesOf es1).Nodup := by
    have hsub : List.Sublist (dirNamesOf es1) (namesOf es1) := by
      unfold dirNamesOf namesOf
      exact (List.filter_sublist es1.toList).map (fun x => x.1)
    exact hnames_nd.sublist hsub
  have hnm_dn : nm ∈ dirNamesOf es1 := by
    unfold dirNamesOf
    refine List.mem_map.mpr ⟨e, List.mem_filter.mpr ⟨hmem_e, ?_⟩, he1⟩
    rw [he2]
    rfl
  have htrip : ((root ++ rel), dirNamesOf es1) ∈ walkFS fs root := by
    unfold walkFS
    rw [hroot_look]
    exact lookup_walk_mem rel t0 es1 root hrel_look
  have hbase : strTake nm (strLen nm - strLen suffix) ≠ (⟨[]⟩ : String) := by
    intro hc
    have hdata : nm.data.take (strLen nm - strLen suffix) = [] := by
      have := congrArg String.data hc
      simpa [strTake] using this
    have hlen3 := congrArg List.length hdata
    rw [List.length_take] at hlen3
    simp only [List.length_nil] at hlen3
    unfold strLen at hlen hlen3
    omega
  simp only [build_plan, if_neg hsuf]
  exact flatMap_filter_unique (walkFS fs root)
    (fun Q name =>
      if strEndsWith (if ic then strLower name else name)
          (if ic then strLower suffix else suffix) then
        if strTake name (strLen name - strLen suffix) ≠ (⟨[]⟩ : String) then
          some (Q ++ [name], Q ++ [strTake name (strLen name - strLen suffix)])
        else none
      else none)
    (root ++ rel) nm _
    (walkFS_pw fs root hwf)
    ⟨dirNamesOf es1, htrip, hdn_nd, hnm_dn⟩
    (by
      intro Q n x hg
      obtain ⟨_, _, hx⟩ := ite_some_conds _ _ _ x hg
      rw [hx])
    (by simp only [hmatch, if_true, hbase, if_pos, ne_eq,
        not_false_eq_true])

/-- Witness for C2: on the scenario tree `{A_old/{x.txt}, A/{}}` the plan
holds exactly one entry with source `A_old`, and it is `(A_old, A)`. -/
theorem build_plan_spec_witness :
    (build_plan exFS [] ("_old") false).filter
        (fun e => e.1 == [] ++ [("A_old")]) =
      [([] ++ [("A_old")],
        [] ++ [strTake ("A_old") (strLen ("A_old") - strLen ("_old"))])] :=
  (build_plan_spec exFS [] [] ("A_old") ("_old") false (by decide) (by decide)
    (by decide) (by decide) (by decide) (by decide)).1

theorem build_plan_pw (fs : FSTree) (root : Path) (suffix : String)
    (ic : Bool) (hwf : wfT fs = true) :
    (build_plan fs root suffix ic).Pairwise
      (fun a b => ¬ (a.1 <+: b.1 ∧ a.1 ≠ b.1)) := by
  by_cases hs : suffix = (⟨[]⟩ : String)
  · rw [build_plan, if_pos hs]
    exact List.Pairwise.nil
  simp only [build_plan, if_neg hs]
  rw [List.pairwise_flatMap]
  constructor
  · intro tr htr
    refine List.pairwise_of_forall_mem_list ?_
    intro x hx y hy
    obtain ⟨nx, hnx, hgx⟩ := List.mem_filterMap.mp hx
    obtain ⟨ny, hny, hgy⟩ := List.mem_filterMap.mp hy
    rintro ⟨hpre, hne⟩
    apply hne
    have hx1 : x.1 = tr.1 ++ [nx] := by
      obtain ⟨_, _, hx2⟩ := ite_some_conds _ _ _ x hgx
      rw [hx2]
    have hy1 : y.1 = tr.1 ++ [ny] := by
      obtain ⟨_, _, hy2⟩ := ite_some_conds _ _ _ y hgy
      rw [hy2]
    refine hpre.eq_of_length ?_
    rw [hx1, hy1]
    simp
  · have hpw := walkFS_pw fs root hwf
    refine hpw.imp ?_
    intro a b hab
    intro x hx y hy
    rintro ⟨hpre, hne⟩
    obtain ⟨nx, hnx, hgx⟩ := List.mem_filterMap.mp hx
    obtain ⟨ny, hny, hgy⟩ := List.mem_filterMap.mp hy
    have hx1 : x.1 = a.1 ++ [nx] := by
      obtain ⟨_, _, hx2⟩ := ite_some_conds _ _ _ x hgx
      rw [hx2]
    have hy1 : y.1 = b.1 ++ [ny] := by
      obtain ⟨_, _, hy2⟩ := ite_some_conds _ _ _ y hgy
      rw [hy2]
    apply hab
    have hlt : x.1.length < y.1.length := by
      rcases Nat.lt_or_ge x.1.length y.1.length with h | h
      · exact h
      · exact absurd (hpre.eq_of_length (Nat.le_antisymm hpre.length_le h)) hne
    have hxb : x.1 <+: b.1 := by
      refine List.prefix_of_prefix_length_le hpre
        (by rw [hy1]; exact List.prefix_append _ _) ?_
      rw [hy1] at hlt
      simp only [List.length_append, List.length_cons, List.length_nil] at hlt
      omega
    have hax : a.1 <+: x.1 := by
      rw [hx1]
      exact List.prefix_append _ _
    exact hax.trans hxb

/-- C3.  In every plan returned by `build_plan` over a well-formed tree, for
any two entries whose source paths are in a strict ancestor/descendant
relation, the entry with the descendant source occurs strictly earlier in
the plan than the entry with the ancestor source (deepest first, following
the `topdown=False` post-order walk). -/
theorem build_plan_postorder (fs : FSTree) (root : Path) (suffix : String)
    (ic : Bool) (hwf : wfT fs = true) :
    ∀ i j (hi : i < (build_plan fs root suffix ic).length)
      (hj : j < (build_plan fs root suffix ic).length),
      ((build_plan fs root suffix ic)[i]).1 <+:
        ((build_plan fs root suffix ic)[j]).1 →
      ((build_plan fs root suffix ic)[i]).1 ≠
        ((build_plan fs root suffix ic)[j]).1 →
      j < i := by
  intro i j hi hj hpre hne
  have hpw := build_plan_pw fs root suffix ic hwf
  rw [List.pairwise_iff_getElem] at hpw
  rcases Nat.lt_trichotomy i j with h | h | h
  · exact absurd ⟨hpre, hne⟩ (hpw i j hi hj h)
  · subst h
    exact absurd rfl hne
  · exact h

/-- Witness for C3: on the nested scenario `{A_old/{B_old}}` the plan is
`[(A_old/B_old, …), (A_old, …)]`; the theorem applied to the ancestor at
index 1 and the descendant at index 0 yields `0 < 1`. -/
theorem build_plan_postorder_witness :
    (build_plan fsNested [] ("_old") false).length = 2 ∧ (0 : Nat) < 1 :=
  ⟨by decide,
   build_plan_postorder fsNested [] ("_old") false (by decide) 1 0
     (by decide) (by decide) (by decide) (by decide)⟩

end FolderSuffix
